import Mathlib

/-!
# Verification of the random-graphs generation and layout engine

Shallow embedding of the core module (`graphs.py` and the radial layout of
`visualization.py`) of the random-graphs repository, together with proofs of
the specified properties.

Modelling conventions:
* Python floats are modelled by `ℚ` where only comparisons and field
  arithmetic occur (edge-probability draws, the Poisson parameter), and by
  `ℝ` where transcendental functions (`cos`, `sin`, `sqrt`, `math.pi`)
  occur (the layout algorithms).
* The random sources (`np.random.random`, `np.random.poisson`) are modelled
  by explicit streams of draws, passed as a function from the draw index;
  the generator consumes them in program order through a draw counter.
* Python dicts and index-addressed lists are modelled by total functions
  with the dict's default value (`[]` for adjacency/children, `none` for
  `parents`/`levels`); Python raises on out-of-range list indices, so all
  theorems about indexed access stay within the valid index range.
* `raise ValueError(...)` is modelled by `Except String`, the message being
  the static text of the Python message (the interpolated value is elided).
-/

namespace RandomGraphs

/-! ## Graph data model (`graphs.py`, class `Graph`) -/

/-- Embedding of `Graph.__init__` state: `n_nodes`, `edges`, `adjacency`.
`adjacency` is the Python list-of-lists, modelled as a total function. -/
structure Graph where
  n_nodes : ℕ
  edges : List (ℕ × ℕ)
  adjacency : ℕ → List ℕ

/-- `Graph(n_nodes)`: empty edge list, `n` empty adjacency lists. -/
def Graph.init (n : ℕ) : Graph :=
  { n_nodes := n, edges := [], adjacency := fun _ => [] }

/-- Pointwise update of a function-modelled list/dict at one key. -/
def updFn {α : Type} (f : ℕ → α) (i : ℕ) (v : α) : ℕ → α :=
  fun j => if j = i then v else f j

/-- Embedding of `Graph.add_edge`: guarded by `u != v and v not in
adjacency[u]`; appends `(u, v)` to `edges`, `v` to `adjacency[u]` and then
`u` to `adjacency[v]`. -/
def Graph.add_edge (g : Graph) (u v : ℕ) : Graph :=
  if u ≠ v ∧ v ∉ g.adjacency u then
    { g with
      edges := g.edges ++ [(u, v)],
      adjacency :=
        updFn (updFn g.adjacency u (g.adjacency u ++ [v])) v
          ((updFn g.adjacency u (g.adjacency u ++ [v])) v ++ [u]) }
  else g

/-- `Graph.number_of_edges`. -/
def Graph.number_of_edges (g : Graph) : ℕ := g.edges.length

/-- A fresh graph on which an arbitrary sequence of `add_edge` calls is
replayed, in order. -/
def buildGraph (n : ℕ) (calls : List (ℕ × ℕ)) : Graph :=
  calls.foldl (fun g pr => g.add_edge pr.1 pr.2) (Graph.init n)

/-! ## Erdős–Rényi generator (`generate_erdos_renyi`) -/

/-- The pair enumeration of the two nested loops
`for i in range(n): for j in range(i + 1, n)`, in program order. -/
def orderedPairs (n : ℕ) : List (ℕ × ℕ) :=
  (List.range n).flatMap fun i =>
    (List.range' (i + 1) (n - (i + 1))).map fun j => (i, j)

/-- The main loop of `generate_erdos_renyi` after validation: one uniform
draw per pair, the edge added when `draw < p`.  The accumulator carries the
graph and the index of the next draw. -/
def erCore (n : ℕ) (p : ℚ) (draws : ℕ → ℚ) : Graph :=
  ((orderedPairs n).foldl
    (fun (acc : Graph × ℕ) pr =>
      (if draws acc.2 < p then acc.1.add_edge pr.1 pr.2 else acc.1, acc.2 + 1))
    (Graph.init n, 0)).1

/-- Embedding of `generate_erdos_renyi(n, p)`: parameter validation in
source order, then the generation loop. -/
def generate_erdos_renyi (n : ℤ) (p : ℚ) (draws : ℕ → ℚ) :
    Except String Graph :=
  if ¬(0 ≤ p ∧ p ≤ 1) then
    .error "Edge probability must be between 0 and 1"
  else if n < 0 then
    .error "Number of nodes must be non-negative"
  else
    .ok (erCore n.toNat p draws)

/-! ## Tree data model (`graphs.py`, class `Tree`) -/

/-- Embedding of the `Tree` container: `children`, `parents` and `levels`
are Python dicts, modelled as total functions with the access defaults used
by the program (`children.get(node, [])`, absence as `none`). -/
structure Tree where
  nodes : List ℕ
  edges : List (ℕ × ℕ)
  children : ℕ → List ℕ
  parents : ℕ → Option ℕ
  levels : ℕ → Option ℕ

/-- `Tree.__init__`. -/
def Tree.empty : Tree :=
  { nodes := [], edges := [], children := fun _ => [],
    parents := fun _ => none, levels := fun _ => none }

/-- `Tree.add_node(node_id, level)`: appends the node, creates its empty
child list, records its level. -/
def Tree.add_node (t : Tree) (node_id level : ℕ) : Tree :=
  { t with
    nodes := t.nodes ++ [node_id],
    children := updFn t.children node_id [],
    levels := updFn t.levels node_id (some level) }

/-- `Tree.add_edge(parent, child)`: appends the edge, appends `child` to
`children[parent]` (the `if parent not in self.children` guard coincides
with appending to the function's `[]` default), sets `parents[child]`. -/
def Tree.add_edge (t : Tree) (parent child : ℕ) : Tree :=
  { t with
    edges := t.edges ++ [(parent, child)],
    children := updFn t.children parent (t.children parent ++ [child]),
    parents := updFn t.parents child (some parent) }

/-- `Tree.total_population`. -/
def Tree.total_population (t : Tree) : ℕ := t.nodes.length

/-! ## Galton–Watson generator (`generate_galton_watson_tree`) -/

/-- State of the inner `for parent in current_generation` loop: the tree
being extended, the `next_generation` list, the `node_counter`, and the
index of the next Poisson draw. -/
structure GenState where
  tree : Tree
  nextGen : List ℕ
  counter : ℕ
  drawIdx : ℕ

/-- The `for _ in range(num_offspring)` loop: create `k` children of
`parent` at level `gen`, consecutively numbered from the node counter. -/
def addChildren (parent gen : ℕ) : ℕ → GenState → GenState
  | 0, s => s
  | k + 1, s =>
    addChildren parent gen k
      { tree := (s.tree.add_node s.counter gen).add_edge parent s.counter,
        nextGen := s.nextGen ++ [s.counter],
        counter := s.counter + 1,
        drawIdx := s.drawIdx }

/-- One parent's turn in the generation loop: draw
`num_offspring = np.random.poisson(lam)` (one draw, consumed in order) and
create that many children. -/
def processParent (pois : ℕ → ℕ) (gen : ℕ) (s : GenState) (parent : ℕ) :
    GenState :=
  addChildren parent gen (pois s.drawIdx) { s with drawIdx := s.drawIdx + 1 }

/-- State of the `while` loop of `generate_galton_watson_tree`. -/
structure GWState where
  tree : Tree
  curGen : List ℕ
  counter : ℕ
  drawIdx : ℕ
  generation : ℕ
  reachedMax : Bool
  sizes : List ℕ

/-- One iteration of the `while` loop body: increment the generation
counter, process every parent of the current generation, install the new
generation, append its size, and set `reached_max` when the counter equals
`max_generations` while the new generation is non-empty. -/
def gwStep (pois : ℕ → ℕ) (maxGen : ℕ) (st : GWState) : GWState :=
  let gen' := st.generation + 1
  let s := st.curGen.foldl (processParent pois gen')
    { tree := st.tree, nextGen := [], counter := st.counter,
      drawIdx := st.drawIdx }
  { tree := s.tree, curGen := s.nextGen, counter := s.counter,
    drawIdx := s.drawIdx, generation := gen',
    reachedMax := if gen' = maxGen ∧ s.nextGen ≠ [] then true
                  else st.reachedMax,
    sizes := st.sizes ++ [s.nextGen.length] }

/-- The `while current_generation and generation < max_generations` loop.
The fuel argument only bounds the iteration count: each iteration
increments `generation`, so `maxGen` units of fuel (as supplied by `gwRun`)
are never exhausted before the loop condition fails
(`gwLoop_terminal` below). -/
def gwLoop (pois : ℕ → ℕ) (maxGen : ℕ) : ℕ → GWState → GWState
  | 0, st => st
  | fuel + 1, st =>
    if st.curGen ≠ [] ∧ st.generation < maxGen then
      gwLoop pois maxGen fuel (gwStep pois maxGen st)
    else st

/-- The initial state: root node `0` at level 0, `current_generation =
[0]`, `node_counter = 1`, `generation = 0`, `reached_max = False`,
`sizes_per_generation = [1]`. -/
def gwInit : GWState :=
  { tree := Tree.empty.add_node 0 0, curGen := [0], counter := 1,
    drawIdx := 0, generation := 0, reachedMax := false, sizes := [1] }

/-- The whole generation phase of `generate_galton_watson_tree` after
validation. -/
def gwRun (pois : ℕ → ℕ) (maxGen : ℕ) : GWState :=
  gwLoop pois maxGen maxGen gwInit

/-- Embedding of `generate_galton_watson_tree(lam, max_generations)`:
validation in source order, then the loop; returns the tree, the
`reached_max` flag and `sizes_per_generation`. -/
def generate_galton_watson_tree (lam : ℚ) (max_generations : ℤ)
    (pois : ℕ → ℕ) : Except String (Tree × Bool × List ℕ) :=
  if lam ≤ 0 then .error "Poisson parameter must be positive"
  else if max_generations ≤ 0 then
    .error "Maximum generations must be positive"
  else
    let st := gwRun pois max_generations.toNat
    .ok (st.tree, st.reachedMax, st.sizes)

/-! ## Circular layout (`generate_circular_positions`) -/

/-- Embedding of `generate_circular_positions(n, radius)`: node `i` on the
circle at angle `2*pi*i/n` (the `if n > 0 else 0` guard of the source is
kept although the loop body only runs for `n > 0`). -/
noncomputable def generate_circular_positions (n : ℕ) (radius : ℝ) :
    List (ℕ × ℝ × ℝ) :=
  (List.range n).map fun (i : ℕ) =>
    let angle : ℝ := if n > 0 then 2 * Real.pi * (i : ℝ) / (n : ℝ) else 0
    (i, radius * Real.cos angle, radius * Real.sin angle)

/-! ## Spring layout (`generate_spring_positions`) -/

/-- `max(math.sqrt(dx*dx + dy*dy), 0.01)`: the clamped distance. -/
noncomputable def clampedDist (dx dy : ℝ) : ℝ :=
  max (Real.sqrt (dx * dx + dy * dy)) 0.01

/-- One pair's turn in the repulsive loop: compute the pair force and add
it to `forces[i]`, subtract it from `forces[j]` (sequential dict updates,
as in the source). -/
noncomputable def repPush (k : ℝ) (pos : ℕ → ℝ × ℝ) (F : ℕ → ℝ × ℝ)
    (pr : ℕ × ℕ) : ℕ → ℝ × ℝ :=
  let dx := (pos pr.1).1 - (pos pr.2).1
  let dy := (pos pr.1).2 - (pos pr.2).2
  let dist := clampedDist dx dy
  let force := k * k / (dist * dist)
  let fx := force * dx / dist
  let fy := force * dy / dist
  let F1 := updFn F pr.1 ((F pr.1).1 + fx, (F pr.1).2 + fy)
  updFn F1 pr.2 ((F1 pr.2).1 - fx, (F1 pr.2).2 - fy)

/-- One edge's turn in the attractive loop: subtract the edge force at `u`,
add it at `v`. -/
noncomputable def attPull (k : ℝ) (pos : ℕ → ℝ × ℝ) (F : ℕ → ℝ × ℝ)
    (e : ℕ × ℕ) : ℕ → ℝ × ℝ :=
  let dx := (pos e.1).1 - (pos e.2).1
  let dy := (pos e.1).2 - (pos e.2).2
  let dist := clampedDist dx dy
  let force := dist / k
  let fx := force * dx / dist
  let fy := force * dy / dist
  let F1 := updFn F e.1 ((F e.1).1 - fx, (F e.1).2 - fy)
  updFn F1 e.2 ((F1 e.2).1 + fx, (F1 e.2).2 + fy)

/-- The force-accumulation phase of one iteration: zero-initialised forces,
the repulsive double loop over `i < j` pairs, then the attractive loop over
the edge list. -/
noncomputable def iterForces (g : Graph) (k : ℝ) (pos : ℕ → ℝ × ℝ) :
    ℕ → ℝ × ℝ :=
  g.edges.foldl (attPull k pos)
    ((orderedPairs g.n_nodes).foldl (repPush k pos) fun _ => (0, 0))

/-- One iteration of the spring loop: compute the temperature of iteration
`t`, accumulate all forces from the current positions, then move every node
by its accumulated force times `0.1 * temp`. -/
noncomputable def springStep (g : Graph) (k initial_temp : ℝ)
    (iterations : ℕ) (pos : ℕ → ℝ × ℝ) (t : ℕ) : ℕ → ℝ × ℝ :=
  let temp := initial_temp * (1 - (t : ℝ) / (iterations : ℝ))
  let F := iterForces g k pos
  let step_size := 0.1 * temp
  fun i => ((pos i).1 + (F i).1 * step_size, (pos i).2 + (F i).2 * step_size)

/-- Embedding of `generate_spring_positions(graph, iterations, k,
initial_temp)`.  The random initial placement is the explicit argument
`init`; the returned dict has exactly the keys `0..n-1`. -/
noncomputable def generate_spring_positions (g : Graph) (iterations : ℕ)
    (k initial_temp : ℝ) (init : ℕ → ℝ × ℝ) : List (ℕ × ℝ × ℝ) :=
  if g.n_nodes = 0 then []
  else
    let final := (List.range iterations).foldl
      (springStep g k initial_temp iterations) init
    (List.range g.n_nodes).map fun i => (i, final i)

/-! ## Radial tree layout (`visualization.py`, `compute_radial_layout`)

The tree reachable from the root through the `children` dict is modelled
as a rose tree (`RTree`); this is the structure the recursive helpers
`collect_leaves` and `assign_spans` traverse.  For the trees the program
builds (Galton–Watson outputs) node ids are distinct, every node is
reachable from root `0`, and `levels[node]` is the depth of the node, so
the rose tree carries the same information as the `nodes`/`children`/
`levels` dicts.  The `if not tree.nodes: return {}` guard is modelled by
an `Option RTree` argument, `none` standing for the empty tree. -/

/-- Rose-tree view of a `Tree`: a node id and the `children` lists. -/
inductive RTree where
  | node (nid : ℕ) (cs : List RTree)

/-- The node id at the root of a rose tree. -/
def RTree.nid : RTree → ℕ
  | .node i _ => i

/-- Python `%` on floats with a positive divisor:
`a % b = a - b * floor(a / b)`. -/
noncomputable def rmod (a b : ℝ) : ℝ := a - b * (⌊a / b⌋ : ℤ)

/-- Python `min(iterable)` over a non-empty list of reals. -/
noncomputable def pyMin : List ℝ → ℝ
  | [] => 0
  | x :: xs => xs.foldl min x

/-- Python `max(iterable)` over a non-empty list of reals. -/
noncomputable def pyMax : List ℝ → ℝ
  | [] => 0
  | x :: xs => xs.foldl max x

/-- Python `max(iterable)` over a non-empty list of naturals (used for
`max(tree.levels.values())`). -/
def pyMaxNat : List ℕ → ℕ
  | [] => 0
  | x :: xs => xs.foldl max x

/-- Embedding of `collect_leaves`: a node with no children is a leaf;
otherwise concatenate the children's leaves in order. -/
def collect_leaves : RTree → List ℕ
  | .node i [] => [i]
  | .node _ (c₀ :: cs) =>
    ((c₀ :: cs).attach.map fun c => collect_leaves c.1).flatten
decreasing_by
  obtain ⟨cv, hc⟩ := c
  simp only [RTree.node.sizeOf_spec]
  have := List.sizeOf_lt_of_mem hc
  omega

/-- Embedding of `assign_spans` (the returned span of a node; the `span`
dict entry of each node is this value for the corresponding subtree): a
leaf's span is the point interval at its angle; an internal node takes the
min/max over the children's spans, unwrapping endpoints below `pi` by
`2*pi` and reducing modulo `2*pi` when the raw width exceeds `pi`. -/
noncomputable def assign_spans (angles : ℕ → ℝ) : RTree → ℝ × ℝ
  | .node i [] => (angles i, angles i)
  | .node _ (c₀ :: cs) =>
      let child_spans := (c₀ :: cs).attach.map fun c => assign_spans angles c.1
      let a_min := pyMin (child_spans.map Prod.fst)
      let a_max := pyMax (child_spans.map Prod.snd)
      if a_max - a_min > Real.pi then
        let unwrapped := child_spans.map fun s =>
          (if s.1 < Real.pi then s.1 + 2 * Real.pi else s.1,
           if s.2 < Real.pi then s.2 + 2 * Real.pi else s.2)
        (rmod (pyMin (unwrapped.map Prod.fst)) (2 * Real.pi),
         rmod (pyMax (unwrapped.map Prod.snd)) (2 * Real.pi))
      else (a_min, a_max)
decreasing_by
  obtain ⟨cv, hc⟩ := c
  simp only [RTree.node.sizeOf_spec]
  have := List.sizeOf_lt_of_mem hc
  omega

/-- The `mid_angle` line of the position loop:
`(a_min + (a_max - a_min) % (2*pi) / 2) % (2*pi)`. -/
noncomputable def mid_angle (s : ℝ × ℝ) : ℝ :=
  rmod (s.1 + rmod (s.2 - s.1) (2 * Real.pi) / 2) (2 * Real.pi)

/-- The `(node, depth)` pairs of the tree, root first: the contents of the
`levels` dict of a program-built tree. -/
def RTree.depthList : RTree → ℕ → List (ℕ × ℕ)
  | .node i cs, d =>
    (i, d) :: (cs.attach.map fun c => RTree.depthList c.1 (d + 1)).flatten
termination_by t _ => sizeOf t
decreasing_by
  obtain ⟨cv, hc⟩ := c
  simp only [RTree.node.sizeOf_spec]
  have := List.sizeOf_lt_of_mem hc
  omega

/-- The node ids of the tree in root-first order. -/
def RTree.nodeIds (t : RTree) : List ℕ := (t.depthList 0).map Prod.fst

/-- The position loop of `compute_radial_layout`, one entry per node:
radius from the node's depth (`levels.get(node, 0)`) and `max(1,
max_level)`, angle from the node's span.  The span of a node is
`assign_spans` of its subtree, exactly the entry the `span` dict holds for
it after `assign_spans(root)` has run. -/
noncomputable def layoutNodes (angles : ℕ → ℝ) (outer_radius : ℝ)
    (maxL rootId : ℕ) : RTree → ℕ → List (ℕ × ℝ × ℝ)
  | .node i cs, d =>
    let mid := mid_angle (assign_spans angles (.node i cs))
    let min_r : ℝ := if i = rootId then 0 else 0.08 * outer_radius
    let r := min_r + ((d : ℝ) / (maxL : ℝ)) * (outer_radius - min_r)
    (i, r * Real.cos mid, r * Real.sin mid) ::
      (cs.attach.map fun c => layoutNodes angles outer_radius maxL rootId
        c.1 (d + 1)).flatten
termination_by t _ => sizeOf t
decreasing_by
  obtain ⟨cv, hc⟩ := c
  simp only [RTree.node.sizeOf_spec]
  have := List.sizeOf_lt_of_mem hc
  omega

/-- The `leaf_angles` dict: `{leaf: 2*pi*i/n_leaves for i, leaf in
enumerate(leaves)}`, as the function sending a leaf id to its angle (the
index of its occurrence in the collected leaf list; the trees the program
builds have distinct node ids, for which first and last occurrence
coincide). -/
noncomputable def leafAngles (t : RTree) : ℕ → ℝ := fun x =>
  2 * Real.pi * ((collect_leaves t).indexOf x : ℝ) /
    ((collect_leaves t).length : ℝ)

/-- Embedding of `GaltonWatson.compute_radial_layout(tree, root=0)`:
empty tree to empty mapping; otherwise collect the leaves from the root,
give the `i`-th leaf the angle `2*pi*i/n_leaves` (the `leaf_angles` dict),
compute the spans, and place every node. -/
noncomputable def compute_radial_layout (outer_radius : ℝ) :
    Option RTree → List (ℕ × ℝ × ℝ)
  | none => []
  | some t =>
    let max_level := pyMaxNat ((t.depthList 0).map Prod.snd)
    layoutNodes (leafAngles t) outer_radius (max 1 max_level) t.nid t 0

/-- Python dict lookup for a dict built by inserting the listed key/value
pairs in order (a later binding overwrites an earlier one). -/
def dictLookup {α : Type} : List (ℕ × α) → ℕ → Option α
  | [], _ => none
  | (k, v) :: rest, x =>
    match dictLookup rest x with
    | some w => some w
    | none => if x = k then some v else none

/-! ## Graph invariants (adjacency symmetry, no self-loops, no duplicates) -/

/-- The `Graph` representation invariant of the spec: membership in an
adjacency list agrees with the unordered pair being in the edge list; no
self-loops; no duplicate adjacency entries. -/
def GraphInv (g : Graph) : Prop :=
  (∀ u v, v ∈ g.adjacency u ↔ ((u, v) ∈ g.edges ∨ (v, u) ∈ g.edges)) ∧
  (∀ u, u ∉ g.adjacency u) ∧
  (∀ u, (g.adjacency u).Nodup)

lemma graphInv_init (n : ℕ) : GraphInv (Graph.init n) := by
  refine ⟨fun u v => ?_, fun u => ?_, fun u => ?_⟩ <;>
    simp [Graph.init]

lemma add_edge_eq_of_guard {g : Graph} {u v : ℕ}
    (h1 : u ≠ v) (h2 : v ∉ g.adjacency u) :
    g.add_edge u v =
      { g with
        edges := g.edges ++ [(u, v)],
        adjacency := fun w =>
          if w = v then g.adjacency v ++ [u]
          else if w = u then g.adjacency u ++ [v]
          else g.adjacency w } := by
  unfold Graph.add_edge updFn
  rw [if_pos ⟨h1, h2⟩]
  refine congrArg _ ?_
  funext w
  by_cases hv : w = v
  · subst hv; simp [Ne.symm h1]
  · by_cases hu : w = u <;> simp [hv, hu, h1]

lemma graphInv_add_edge {g : Graph} (h : GraphInv g) (u v : ℕ) :
    GraphInv (g.add_edge u v) := by
  obtain ⟨hmem, hself, hnd⟩ := h
  by_cases hc : u ≠ v ∧ v ∉ g.adjacency u
  · obtain ⟨huv, hvu⟩ := hc
    have hvne : ¬ v = u := fun hh => huv hh.symm
    have hub : u ∉ g.adjacency v := by
      intro hu
      exact hvu ((hmem u v).mpr (Or.symm ((hmem v u).mp hu)))
    rw [add_edge_eq_of_guard huv hvu]
    refine ⟨fun a b => ?_, fun a => ?_, fun a => ?_⟩
    · simp only [List.mem_append, List.mem_singleton, Prod.mk.injEq]
      by_cases hav : a = v
      · rw [hav, if_pos rfl, List.mem_append, List.mem_singleton,
          hmem v b]
        simp only [and_true, eq_self_iff_true, true_and]
        constructor
        · rintro ((h1 | h1) | h1)
          · exact Or.inl (Or.inl h1)
          · exact Or.inr (Or.inl h1)
          · exact Or.inr (Or.inr h1)
        · rintro ((h1 | ⟨h1, h2⟩) | (h1 | h1))
          · exact Or.inl (Or.inl h1)
          · exact absurd h1 hvne
          · exact Or.inl (Or.inr h1)
          · exact Or.inr h1
      · by_cases hau : a = u
        · rw [if_neg hav, hau, if_pos rfl, List.mem_append,
            List.mem_singleton, hmem u b]
          simp only [and_true, eq_self_iff_true, true_and]
          constructor
          · rintro ((h1 | h1) | h1)
            · exact Or.inl (Or.inl h1)
            · exact Or.inr (Or.inl h1)
            · exact Or.inl (Or.inr h1)
          · rintro ((h1 | h1) | (h1 | ⟨h1, h2⟩))
            · exact Or.inl (Or.inl h1)
            · exact Or.inr h1
            · exact Or.inl (Or.inr h1)
            · exact absurd h2 huv
        · rw [if_neg hav, if_neg hau, hmem a b]
          constructor
          · rintro (h1 | h1)
            · exact Or.inl (Or.inl h1)
            · exact Or.inr (Or.inl h1)
          · rintro ((h1 | ⟨h1, h2⟩) | (h1 | ⟨h1, h2⟩))
            · exact Or.inl h1
            · exact absurd h1 hau
            · exact Or.inr h1
            · exact absurd h2 hav
    · simp only []
      by_cases hav : a = v
      · rw [hav, if_pos rfl, List.mem_append, List.mem_singleton]
        rintro (h1 | h1)
        · exact hself v h1
        · exact hvne h1
      · by_cases hau : a = u
        · rw [if_neg hav, hau, if_pos rfl, List.mem_append,
            List.mem_singleton]
          rintro (h1 | h1)
          · exact hself u h1
          · exact huv h1
        · rw [if_neg hav, if_neg hau]
          exact hself a
    · simp only []
      by_cases hav : a = v
      · rw [hav, if_pos rfl]
        exact List.Nodup.append (hnd v) (List.nodup_singleton u)
          (by simpa [List.disjoint_singleton] using hub)
      · by_cases hau : a = u
        · rw [if_neg hav, hau, if_pos rfl]
          exact List.Nodup.append (hnd u) (List.nodup_singleton v)
            (by simpa [List.disjoint_singleton] using hvu)
        · rw [if_neg hav, if_neg hau]
          exact hnd a
  · unfold Graph.add_edge
    rw [if_neg hc]
    exact ⟨hmem, hself, hnd⟩

lemma graphInv_foldl (calls : List (ℕ × ℕ)) :
    ∀ g : Graph, GraphInv g →
      GraphInv (calls.foldl (fun g pr => g.add_edge pr.1 pr.2) g) := by
  induction calls with
  | nil => intro g h; exact h
  | cons pr rest ih =>
    intro g h
    exact ih _ (graphInv_add_edge h pr.1 pr.2)

lemma graphInv_buildGraph (n : ℕ) (calls : List (ℕ × ℕ)) :
    GraphInv (buildGraph n calls) :=
  graphInv_foldl calls _ (graphInv_init n)

lemma graphInv_erCoreAux (l : List (ℕ × ℕ)) (p : ℚ) (draws : ℕ → ℚ) :
    ∀ acc : Graph × ℕ, GraphInv acc.1 →
      GraphInv (l.foldl
        (fun (acc : Graph × ℕ) pr =>
          (if draws acc.2 < p then acc.1.add_edge pr.1 pr.2 else acc.1,
           acc.2 + 1)) acc).1 := by
  induction l with
  | nil => intro acc h; exact h
  | cons pr rest ih =>
    intro acc h
    refine ih _ ?_
    by_cases hd : draws acc.2 < p
    · simpa [hd] using graphInv_add_edge h pr.1 pr.2
    · simpa [hd] using h

lemma graphInv_erCore (n : ℕ) (p : ℚ) (draws : ℕ → ℚ) :
    GraphInv (erCore n p draws) :=
  graphInv_erCoreAux _ p draws _ (graphInv_init n)

/-- C5: every Graph built by a sequence of `add_edge` calls on a fresh
graph — and every graph the `generate_erdos_renyi` loop produces —
satisfies: `v ∈ adjacency[u]` iff `u ∈ adjacency[v]` iff the unordered
pair `{u, v}` occurs in the edge list; no adjacency list contains the node
itself, and none contains a repeated entry.  (`generate_erdos_renyi`
returns exactly `erCore` of its arguments whenever it returns at all.) -/
theorem add_edge_graphs_satisfy_invariants (n : ℕ) (calls : List (ℕ × ℕ))
    (nz : ℤ) (p : ℚ) (draws : ℕ → ℚ) :
    (∀ u v,
      (v ∈ (buildGraph n calls).adjacency u ↔
        u ∈ (buildGraph n calls).adjacency v) ∧
      (v ∈ (buildGraph n calls).adjacency u ↔
        ((u, v) ∈ (buildGraph n calls).edges ∨
         (v, u) ∈ (buildGraph n calls).edges))) ∧
    (∀ u, u ∉ (buildGraph n calls).adjacency u) ∧
    (∀ u, ((buildGraph n calls).adjacency u).Nodup) ∧
    (∀ u v,
      (v ∈ (erCore n p draws).adjacency u ↔
        u ∈ (erCore n p draws).adjacency v) ∧
      (v ∈ (erCore n p draws).adjacency u ↔
        ((u, v) ∈ (erCore n p draws).edges ∨
         (v, u) ∈ (erCore n p draws).edges))) ∧
    (∀ u, u ∉ (erCore n p draws).adjacency u) ∧
    (∀ u, ((erCore n p draws).adjacency u).Nodup) ∧
    (generate_erdos_renyi nz p draws =
        Except.ok (erCore nz.toNat p draws) ∨
      (generate_erdos_renyi nz p draws).isOk = false) := by
  obtain ⟨bmem, bself, bnd⟩ := graphInv_buildGraph n calls
  obtain ⟨emem, eself, end'⟩ := graphInv_erCore n p draws
  refine ⟨fun u v => ⟨by rw [bmem u v, bmem v u]; exact Or.comm,
      bmem u v⟩, bself, bnd,
    fun u v => ⟨by rw [emem u v, emem v u]; exact Or.comm,
      emem u v⟩, eself, end', ?_⟩
  unfold generate_erdos_renyi
  by_cases hp : 0 ≤ p ∧ p ≤ 1
  · by_cases hn : nz < 0
    · simp [hp, hn, Except.isOk, Except.toBool]
    · simp [hp, hn]
  · simp [hp, Except.isOk, Except.toBool]

/-! ## The Erdős–Rényi edge cases p = 0 and p = 1 -/

lemma mem_orderedPairs {n : ℕ} {pr : ℕ × ℕ} :
    pr ∈ orderedPairs n ↔ pr.1 < pr.2 ∧ pr.2 < n := by
  obtain ⟨a, b⟩ := pr
  simp only [orderedPairs, List.mem_flatMap, List.mem_map, List.mem_range,
    List.mem_range'_1, Prod.mk.injEq]
  constructor
  · rintro ⟨i, hi, j, ⟨hj1, hj2⟩, rfl, rfl⟩
    omega
  · rintro ⟨hab, hbn⟩
    exact ⟨a, by omega, b, ⟨by omega, by omega⟩, rfl, rfl⟩

lemma nodup_orderedPairs (n : ℕ) : (orderedPairs n).Nodup := by
  rw [orderedPairs, List.nodup_flatMap]
  constructor
  · intro i _
    exact (List.nodup_range' (s := i + 1) (n := n - (i + 1))).map
      (fun j k h => congrArg Prod.snd h)
  · refine List.Pairwise.imp ?_ (List.nodup_range n)
    intro i j hij x hx hy
    simp only [List.mem_map] at hx hy
    obtain ⟨j1, _, rfl⟩ := hx
    obtain ⟨j2, _, hx2⟩ := hy
    exact hij (congrArg Prod.fst hx2).symm

lemma list_range_map_sum (m : ℕ) (f : ℕ → ℕ) :
    ((List.range m).map f).sum = ∑ i ∈ Finset.range m, f i := by
  induction m with
  | zero => simp
  | succ k ih => rw [List.range_succ, Finset.sum_range_succ]; simp [ih]

lemma length_orderedPairs (n : ℕ) :
    (orderedPairs n).length = n * (n - 1) / 2 := by
  have h1 : (orderedPairs n).length =
      ((List.range n).map fun i => n - (i + 1)).sum := by
    simp [orderedPairs, List.length_flatMap, Function.comp_def]
  rw [h1, list_range_map_sum]
  have h2 : ∀ i ∈ Finset.range n, n - (i + 1) = n - 1 - i := by
    intro i _; omega
  rw [Finset.sum_congr rfl h2, Finset.sum_range_reflect (fun i => i) n,
    Finset.sum_range_id]

lemma foldl_add_edge_edges :
    ∀ (l : List (ℕ × ℕ)) (g : Graph), GraphInv g →
      (∀ pr ∈ l, pr.1 < pr.2) → l.Nodup →
      (∀ pr ∈ l, pr ∉ g.edges ∧ (pr.2, pr.1) ∉ g.edges) →
      (l.foldl (fun g pr => g.add_edge pr.1 pr.2) g).edges = g.edges ++ l := by
  intro l
  induction l with
  | nil => intro g _ _ _ _; simp
  | cons pr rest ih =>
    intro g hinv hlt hnd hfresh
    have hne : pr.1 ≠ pr.2 := Nat.ne_of_lt (hlt pr (by simp))
    have hnotadj : pr.2 ∉ g.adjacency pr.1 := by
      intro hmem'
      rcases (hinv.1 pr.1 pr.2).mp hmem' with h | h
      · exact (hfresh pr (by simp)).1 (by simpa using h)
      · exact (hfresh pr (by simp)).2 h
    have hstep : (g.add_edge pr.1 pr.2).edges = g.edges ++ [pr] := by
      rw [add_edge_eq_of_guard hne hnotadj]
    have hprrest : pr ∉ rest := (List.nodup_cons.mp hnd).1
    rw [List.foldl_cons,
      ih (g.add_edge pr.1 pr.2) (graphInv_add_edge hinv _ _)
        (fun q hq => hlt q (List.mem_cons_of_mem _ hq))
        (List.nodup_cons.mp hnd).2 ?_, hstep]
    · simp
    · intro q hq
      have hq1 : q.1 < q.2 := hlt q (List.mem_cons_of_mem _ hq)
      have hp1 : pr.1 < pr.2 := hlt pr (by simp)
      rw [hstep]
      constructor
      · simp only [List.mem_append, List.mem_singleton]
        rintro (h | h)
        · exact (hfresh q (List.mem_cons_of_mem _ hq)).1 h
        · exact hprrest (h ▸ hq)
      · simp only [List.mem_append, List.mem_singleton]
        rintro (h | h)
        · exact (hfresh q (List.mem_cons_of_mem _ hq)).2 h
        · have h1 : q.2 = pr.1 := congrArg Prod.fst h
          have h2 : q.1 = pr.2 := congrArg Prod.snd h
          omega

lemma erCoreAux_none {p : ℚ} {draws : ℕ → ℚ} (h : ∀ i, ¬ draws i < p) :
    ∀ (l : List (ℕ × ℕ)) (acc : Graph × ℕ),
      (l.foldl (fun (acc : Graph × ℕ) pr =>
        (if draws acc.2 < p then acc.1.add_edge pr.1 pr.2 else acc.1,
         acc.2 + 1)) acc).1 = acc.1 := by
  intro l
  induction l with
  | nil => intro acc; rfl
  | cons pr rest ih =>
    intro acc
    rw [List.foldl_cons, ih]
    simp [h acc.2]

lemma erCoreAux_all {p : ℚ} {draws : ℕ → ℚ} (h : ∀ i, draws i < p) :
    ∀ (l : List (ℕ × ℕ)) (acc : Graph × ℕ),
      (l.foldl (fun (acc : Graph × ℕ) pr =>
        (if draws acc.2 < p then acc.1.add_edge pr.1 pr.2 else acc.1,
         acc.2 + 1)) acc).1 =
      l.foldl (fun g pr => g.add_edge pr.1 pr.2) acc.1 := by
  intro l
  induction l with
  | nil => intro acc; rfl
  | cons pr rest ih =>
    intro acc
    rw [List.foldl_cons, ih, List.foldl_cons]
    simp [h acc.2]

lemma erCore_p_zero {n : ℕ} {draws : ℕ → ℚ} (h : ∀ i, 0 ≤ draws i) :
    erCore n 0 draws = Graph.init n :=
  erCoreAux_none (fun i => not_lt.mpr (h i)) _ _

lemma erCore_p_one {n : ℕ} {draws : ℕ → ℚ} (h : ∀ i, draws i < 1) :
    erCore n 1 draws = buildGraph n (orderedPairs n) :=
  erCoreAux_all h _ _

lemma buildGraph_orderedPairs_edges (n : ℕ) :
    (buildGraph n (orderedPairs n)).edges = orderedPairs n := by
  unfold buildGraph
  rw [foldl_add_edge_edges (orderedPairs n) (Graph.init n) (graphInv_init n)
    (fun pr hpr => (Iff.mp mem_orderedPairs hpr).1) (nodup_orderedPairs n)
    (fun pr _ => by simp [Graph.init])]
  simp [Graph.init]

/-- C3: with every uniform draw in `[0, 1)`, `generate_erdos_renyi(n, 0)`
returns a graph with zero edges, and `generate_erdos_renyi(n, 1)` returns
the complete graph: exactly `n*(n-1)/2` edges, an edge `(u, v)` for
exactly the pairs `u < v < n`, no duplicated edge, no self-loop. -/
theorem erdos_renyi_p_zero_p_one (n : ℕ) (draws : ℕ → ℚ)
    (h : ∀ i, 0 ≤ draws i ∧ draws i < 1) :
    generate_erdos_renyi (n : ℤ) 0 draws = Except.ok (erCore n 0 draws) ∧
    (erCore n 0 draws).edges = [] ∧
    generate_erdos_renyi (n : ℤ) 1 draws = Except.ok (erCore n 1 draws) ∧
    (erCore n 1 draws).number_of_edges = n * (n - 1) / 2 ∧
    (∀ u v : ℕ, (u, v) ∈ (erCore n 1 draws).edges ↔ u < v ∧ v < n) ∧
    (erCore n 1 draws).edges.Nodup ∧
    (∀ pr ∈ (erCore n 1 draws).edges, pr.1 ≠ pr.2) := by
  have hz : erCore n 0 draws = Graph.init n :=
    erCore_p_zero (fun i => (h i).1)
  have ho : erCore n 1 draws = buildGraph n (orderedPairs n) :=
    erCore_p_one (fun i => (h i).2)
  have hoe : (erCore n 1 draws).edges = orderedPairs n := by
    rw [ho, buildGraph_orderedPairs_edges]
  refine ⟨?_, ?_, ?_, ?_, ?_, ?_, ?_⟩
  · unfold generate_erdos_renyi
    norm_num
  · rw [hz]; rfl
  · unfold generate_erdos_renyi
    norm_num
  · rw [Graph.number_of_edges, hoe, length_orderedPairs]
  · intro u v
    rw [hoe]
    exact mem_orderedPairs
  · rw [hoe]; exact nodup_orderedPairs n
  · intro pr hpr
    rw [hoe] at hpr
    exact Nat.ne_of_lt (Iff.mp mem_orderedPairs hpr).1

/-- Witness for C3: the concrete instance n = 3 with constant draw 1/2. -/
theorem erdos_renyi_p_zero_p_one_witness :
    (∀ i : ℕ, 0 ≤ (fun _ : ℕ => (1 : ℚ)/2) i ∧
      (fun _ : ℕ => (1 : ℚ)/2) i < 1) ∧
    (generate_erdos_renyi ((3 : ℕ) : ℤ) 0 (fun _ => (1 : ℚ)/2) =
        Except.ok (erCore 3 0 fun _ => (1 : ℚ)/2) ∧
      (erCore 3 0 fun _ => (1 : ℚ)/2).edges = [] ∧
      generate_erdos_renyi ((3 : ℕ) : ℤ) 1 (fun _ => (1 : ℚ)/2) =
        Except.ok (erCore 3 1 fun _ => (1 : ℚ)/2) ∧
      (erCore 3 1 fun _ => (1 : ℚ)/2).number_of_edges = 3 * (3 - 1) / 2 ∧
      (∀ u v : ℕ,
        (u, v) ∈ (erCore 3 1 fun _ => (1 : ℚ)/2).edges ↔ u < v ∧ v < 3) ∧
      (erCore 3 1 fun _ => (1 : ℚ)/2).edges.Nodup ∧
      (∀ pr ∈ (erCore 3 1 fun _ => (1 : ℚ)/2).edges, pr.1 ≠ pr.2)) :=
  ⟨fun _ => by norm_num,
   erdos_renyi_p_zero_p_one 3 (fun _ => (1 : ℚ)/2) (fun _ => by norm_num)⟩

/-! ## Parameter validation (error handling) -/

/-- C6: `generate_erdos_renyi` fails exactly when `p` is outside `[0, 1]`
or `n < 0`, and `generate_galton_watson_tree` fails exactly when `lam ≤ 0`
or `max_generations ≤ 0`; in the failing cases the result does not depend
on the random stream (no draw is consumed, no partial structure is
returned), and with valid parameters neither function fails. -/
theorem invalid_parameter_exactly (n : ℤ) (p : ℚ) (d d1 d2 : ℕ → ℚ)
    (lam : ℚ) (m : ℤ) (q q1 q2 : ℕ → ℕ) :
    ((generate_erdos_renyi n p d).isOk = true ↔
      (0 ≤ p ∧ p ≤ 1 ∧ 0 ≤ n)) ∧
    (generate_erdos_renyi n p d1 = generate_erdos_renyi n p d2 ∨
      (0 ≤ p ∧ p ≤ 1 ∧ 0 ≤ n)) ∧
    ((generate_galton_watson_tree lam m q).isOk = true ↔
      (0 < lam ∧ 0 < m)) ∧
    (generate_galton_watson_tree lam m q1 =
        generate_galton_watson_tree lam m q2 ∨
      (0 < lam ∧ 0 < m)) := by
  refine ⟨?_, ?_, ?_, ?_⟩
  · unfold generate_erdos_renyi
    by_cases hp : 0 ≤ p ∧ p ≤ 1
    · by_cases hn : n < 0
      · simp [hp, hn, Except.isOk, Except.toBool]
      · simp [hp, hn, Except.isOk, Except.toBool]
        omega
    · simp [hp, Except.isOk, Except.toBool]
      tauto
  · unfold generate_erdos_renyi
    by_cases hp : 0 ≤ p ∧ p ≤ 1
    · by_cases hn : n < 0
      · simp [hp, hn]
      · right; exact ⟨hp.1, hp.2, by omega⟩
    · simp [hp]
  · unfold generate_galton_watson_tree
    by_cases hl : lam ≤ 0
    · simp [hl, Except.isOk, Except.toBool]
      try intro h
      try exact absurd hl (not_le.mpr h)
    · by_cases hm : m ≤ 0
      · simp [hl, hm, Except.isOk, Except.toBool]
      · simp [hl, hm, Except.isOk, Except.toBool]
        try exact ⟨not_le.mp hl, by omega⟩
  · unfold generate_galton_watson_tree
    by_cases hl : lam ≤ 0
    · simp [hl]
    · by_cases hm : m ≤ 0
      · simp [hl, hm]
      · right; exact ⟨not_le.mp hl, by omega⟩

/-! ## Galton–Watson loop lemmas -/

lemma gwStep_generation (pois : ℕ → ℕ) (maxGen : ℕ) (st : GWState) :
    (gwStep pois maxGen st).generation = st.generation + 1 := rfl

lemma gwStep_curGen (pois : ℕ → ℕ) (maxGen : ℕ) (st : GWState) :
    (gwStep pois maxGen st).curGen =
      (st.curGen.foldl (processParent pois (st.generation + 1))
        { tree := st.tree, nextGen := [], counter := st.counter,
          drawIdx := st.drawIdx }).nextGen := rfl

lemma gwStep_reachedMax (pois : ℕ → ℕ) (maxGen : ℕ) (st : GWState) :
    (gwStep pois maxGen st).reachedMax =
      if st.generation + 1 = maxGen ∧ (gwStep pois maxGen st).curGen ≠ []
      then true else st.reachedMax := rfl

lemma gwLoop_no_cond {pois : ℕ → ℕ} {maxGen fuel : ℕ} {st : GWState}
    (h : ¬(st.curGen ≠ [] ∧ st.generation < maxGen)) :
    gwLoop pois maxGen fuel st = st := by
  cases fuel with
  | zero => rfl
  | succ f => rw [gwLoop, if_neg h]

lemma gwLoop_terminal (pois : ℕ → ℕ) (maxGen : ℕ) :
    ∀ (fuel : ℕ) (st : GWState), maxGen ≤ st.generation + fuel →
      ¬((gwLoop pois maxGen fuel st).curGen ≠ [] ∧
        (gwLoop pois maxGen fuel st).generation < maxGen) := by
  intro fuel
  induction fuel with
  | zero =>
    intro st h
    rw [gwLoop]
    rintro ⟨-, h2⟩
    omega
  | succ f ih =>
    intro st h
    rw [gwLoop]
    by_cases hc : st.curGen ≠ [] ∧ st.generation < maxGen
    · rw [if_pos hc]
      exact ih _ (by rw [gwStep_generation]; omega)
    · rw [if_neg hc]
      exact hc

lemma gwLoop_gen_le (pois : ℕ → ℕ) (maxGen : ℕ) :
    ∀ (fuel : ℕ) (st : GWState),
      st.generation ≤ (gwLoop pois maxGen fuel st).generation := by
  intro fuel
  induction fuel with
  | zero => intro st; exact le_refl _
  | succ f ih =>
    intro st
    rw [gwLoop]
    by_cases hc : st.curGen ≠ [] ∧ st.generation < maxGen
    · rw [if_pos hc]
      have := ih (gwStep pois maxGen st)
      rw [gwStep_generation] at this
      omega
    · rw [if_neg hc]

lemma gwLoop_gen_le_max (pois : ℕ → ℕ) (maxGen : ℕ) :
    ∀ (fuel : ℕ) (st : GWState), st.generation ≤ maxGen →
      (gwLoop pois maxGen fuel st).generation ≤ maxGen := by
  intro fuel
  induction fuel with
  | zero => intro st h; exact h
  | succ f ih =>
    intro st h
    rw [gwLoop]
    by_cases hc : st.curGen ≠ [] ∧ st.generation < maxGen
    · rw [if_pos hc]
      exact ih _ (by rw [gwStep_generation]; omega)
    · rw [if_neg hc]; exact h

lemma gwLoop_flag (pois : ℕ → ℕ) (maxGen : ℕ) :
    ∀ (fuel : ℕ) (st : GWState),
      maxGen ≤ st.generation + fuel →
      st.reachedMax = false →
      st.curGen ≠ [] →
      st.generation < maxGen →
      ((gwLoop pois maxGen fuel st).reachedMax = true ↔
        ((gwLoop pois maxGen fuel st).generation = maxGen ∧
         (gwLoop pois maxGen fuel st).curGen ≠ [])) := by
  intro fuel
  induction fuel with
  | zero =>
    intro st h0 _ _ hlt
    omega
  | succ f ih =>
    intro st hfuel hflag hcur hlt
    rw [gwLoop, if_pos ⟨hcur, hlt⟩]
    by_cases hc2 : (gwStep pois maxGen st).curGen ≠ []
    · by_cases hgen : (gwStep pois maxGen st).generation < maxGen
      · have hflag2 : (gwStep pois maxGen st).reachedMax = false := by
          rw [gwStep_reachedMax, if_neg, hflag]
          rw [gwStep_generation] at hgen
          rintro ⟨h1, -⟩
          omega
        exact ih _ (by rw [gwStep_generation]; omega) hflag2 hc2 hgen
      · have hgen2 : (gwStep pois maxGen st).generation = maxGen := by
          rw [gwStep_generation] at hgen ⊢
          omega
        have hflag2 : (gwStep pois maxGen st).reachedMax = true := by
          rw [gwStep_reachedMax, if_pos]
          have hg := gwStep_generation pois maxGen st
          exact ⟨by omega, hc2⟩
        rw [gwLoop_no_cond (by rw [hgen2]; simp)]
        simp [hflag2, hgen2, hc2]
    · have hflag2 : (gwStep pois maxGen st).reachedMax = false := by
        rw [gwStep_reachedMax, if_neg, hflag]
        rintro ⟨-, h2⟩
        exact h2 (not_ne_iff.mp hc2)
      rw [gwLoop_no_cond (by simp [not_ne_iff.mp hc2])]
      simp [hflag2, not_ne_iff.mp hc2]

/-! ## Galton–Watson structural invariants -/

lemma oneChild_fields (t : Tree) (parent c gen' : ℕ) :
    ((t.add_node c gen').add_edge parent c).nodes = t.nodes ++ [c] ∧
    (∀ x, ((t.add_node c gen').add_edge parent c).levels x =
      if x = c then some gen' else t.levels x) ∧
    (∀ x, ((t.add_node c gen').add_edge parent c).parents x =
      if x = c then some parent else t.parents x) := by
  refine ⟨rfl, fun x => ?_, fun x => ?_⟩ <;>
    simp [Tree.add_node, Tree.add_edge, updFn]

/-- Invariant of the inner generation-building state: root present at level
0, node ids bounded by the counter, the new generation at level `gen'`, and
every non-root node pointing to a recorded parent one level up. -/
def GenInv (gen' : ℕ) (s : GenState) : Prop :=
  s.tree.levels 0 = some 0 ∧
  0 ∈ s.tree.nodes ∧
  1 ≤ s.counter ∧
  (∀ x ∈ s.tree.nodes, x < s.counter) ∧
  (∀ x ∈ s.nextGen, x ∈ s.tree.nodes ∧ s.tree.levels x = some gen') ∧
  (∀ x ∈ s.tree.nodes, x ≠ 0 →
    ∃ p L, s.tree.parents x = some p ∧ p ∈ s.tree.nodes ∧
      s.tree.levels p = some L ∧ s.tree.levels x = some (L + 1))

lemma addChildren_spec (parent gen' : ℕ) (hgen : 1 ≤ gen') :
    ∀ (k : ℕ) (s : GenState),
      GenInv gen' s →
      parent ∈ s.tree.nodes →
      s.tree.levels parent = some (gen' - 1) →
      GenInv gen' (addChildren parent gen' k s) ∧
      (∀ x ∈ s.tree.nodes,
        x ∈ (addChildren parent gen' k s).tree.nodes ∧
        (addChildren parent gen' k s).tree.levels x = s.tree.levels x) ∧
      (addChildren parent gen' k s).tree.nodes.length + s.nextGen.length =
        s.tree.nodes.length + (addChildren parent gen' k s).nextGen.length ∧
      s.counter ≤ (addChildren parent gen' k s).counter ∧
      (addChildren parent gen' k s).drawIdx = s.drawIdx := by
  intro k
  induction k with
  | zero =>
    intro s hs hp hpl
    exact ⟨hs, fun x hx => ⟨hx, rfl⟩, rfl, le_refl _, rfl⟩
  | succ k ih =>
    intro s hs hp hpl
    obtain ⟨hl0, h0n, hc1, hbnd, hng, hpar⟩ := hs
    obtain ⟨hno, hle, hpa⟩ := oneChild_fields s.tree parent s.counter gen'
    have hcc : parent ≠ s.counter := Nat.ne_of_lt (hbnd parent hp)
    have h0c : (0 : ℕ) ≠ s.counter := by omega
    rw [addChildren]
    have key := ih
      { tree := (s.tree.add_node s.counter gen').add_edge parent s.counter,
        nextGen := s.nextGen ++ [s.counter],
        counter := s.counter + 1,
        drawIdx := s.drawIdx } ?_ ?_ ?_
    case refine_2 =>
      show parent ∈ ((s.tree.add_node s.counter gen').add_edge
        parent s.counter).nodes
      rw [hno]
      exact List.mem_append_left _ hp
    case refine_3 =>
      show ((s.tree.add_node s.counter gen').add_edge
        parent s.counter).levels parent = some (gen' - 1)
      rw [hle, if_neg hcc]
      exact hpl
    case refine_1 =>
      refine ⟨?_, ?_, ?_, ?_, ?_, ?_⟩
      · show ((s.tree.add_node s.counter gen').add_edge
          parent s.counter).levels 0 = some 0
        rw [hle, if_neg h0c]
        exact hl0
      · show 0 ∈ ((s.tree.add_node s.counter gen').add_edge
          parent s.counter).nodes
        rw [hno]
        exact List.mem_append_left _ h0n
      · show 1 ≤ s.counter + 1
        omega
      · intro x hx
        rw [show ((⟨(s.tree.add_node s.counter gen').add_edge parent
          s.counter, s.nextGen ++ [s.counter], s.counter + 1,
          s.drawIdx⟩ : GenState)).tree.nodes = s.tree.nodes ++ [s.counter]
          from hno] at hx
        rcases List.mem_append.mp hx with h | h
        · have := hbnd x h
          show x < s.counter + 1
          omega
        · have : x = s.counter := List.mem_singleton.mp h
          show x < s.counter + 1
          omega
      · intro x hx
        rcases List.mem_append.mp hx with h | h
        · have hxn := (hng x h).1
          have hxne : x ≠ s.counter := Nat.ne_of_lt (hbnd x hxn)
          constructor
          · show x ∈ ((s.tree.add_node s.counter gen').add_edge
              parent s.counter).nodes
            rw [hno]
            exact List.mem_append_left _ hxn
          · show ((s.tree.add_node s.counter gen').add_edge
              parent s.counter).levels x = some gen'
            rw [hle, if_neg hxne]
            exact (hng x h).2
        · have hxc : x = s.counter := List.mem_singleton.mp h
          subst hxc
          constructor
          · show s.counter ∈ ((s.tree.add_node s.counter gen').add_edge
              parent s.counter).nodes
            rw [hno]
            exact List.mem_append_right _ (List.mem_singleton.mpr rfl)
          · show ((s.tree.add_node s.counter gen').add_edge
              parent s.counter).levels s.counter = some gen'
            rw [hle, if_pos rfl]
      · intro x hx hx0
        rw [show ((⟨(s.tree.add_node s.counter gen').add_edge parent
          s.counter, s.nextGen ++ [s.counter], s.counter + 1,
          s.drawIdx⟩ : GenState)).tree.nodes = s.tree.nodes ++ [s.counter]
          from hno] at hx
        rcases List.mem_append.mp hx with h | h
        · obtain ⟨p, L, hp1, hp2, hp3, hp4⟩ := hpar x h hx0
          have hxne : x ≠ s.counter := Nat.ne_of_lt (hbnd x h)
          have hpne : p ≠ s.counter := Nat.ne_of_lt (hbnd p hp2)
          refine ⟨p, L, ?_, ?_, ?_, ?_⟩
          · show ((s.tree.add_node s.counter gen').add_edge
              parent s.counter).parents x = some p
            rw [hpa, if_neg hxne]
            exact hp1
          · show p ∈ ((s.tree.add_node s.counter gen').add_edge
              parent s.counter).nodes
            rw [hno]
            exact List.mem_append_left _ hp2
          · show ((s.tree.add_node s.counter gen').add_edge
              parent s.counter).levels p = some L
            rw [hle, if_neg hpne]
            exact hp3
          · show ((s.tree.add_node s.counter gen').add_edge
              parent s.counter).levels x = some (L + 1)
            rw [hle, if_neg hxne]
            exact hp4
        · have hxc : x = s.counter := List.mem_singleton.mp h
          subst hxc
          refine ⟨parent, gen' - 1, ?_, ?_, ?_, ?_⟩
          · show ((s.tree.add_node s.counter gen').add_edge parent
              s.counter).parents s.counter = some parent
            rw [hpa, if_pos rfl]
          · show parent ∈ ((s.tree.add_node s.counter gen').add_edge
              parent s.counter).nodes
            rw [hno]
            exact List.mem_append_left _ hp
          · show ((s.tree.add_node s.counter gen').add_edge parent
              s.counter).levels parent = some (gen' - 1)
            rw [hle, if_neg hcc]
            exact hpl
          · show ((s.tree.add_node s.counter gen').add_edge parent
              s.counter).levels s.counter = some (gen' - 1 + 1)
            rw [hle, if_pos rfl]
            congr 1
            omega
    obtain ⟨R1, R2, R3, R4, R5⟩ := key
    refine ⟨R1, ?_, ?_, ?_, ?_⟩
    · intro x hx
      have hxne : x ≠ s.counter := Nat.ne_of_lt (hbnd x hx)
      have hmem : x ∈ ((s.tree.add_node s.counter gen').add_edge
          parent s.counter).nodes := by
        rw [hno]; exact List.mem_append_left _ hx
      obtain ⟨m1, m2⟩ := R2 x hmem
      refine ⟨m1, ?_⟩
      rw [m2]
      show ((s.tree.add_node s.counter gen').add_edge
        parent s.counter).levels x = s.tree.levels x
      rw [hle, if_neg hxne]
    · have e1 : ((s.tree.add_node s.counter gen').add_edge
          parent s.counter).nodes.length = s.tree.nodes.length + 1 := by
        rw [hno, List.length_append, List.length_singleton]
      have e2 : (s.nextGen ++ [s.counter]).length = s.nextGen.length + 1 := by
        rw [List.length_append, List.length_singleton]
      rw [e1, e2] at R3
      omega
    · calc s.counter ≤ s.counter + 1 := by omega
        _ ≤ _ := R4
    · rw [R5]

lemma foldl_processParent_spec (pois : ℕ → ℕ) (gen' : ℕ) (hgen : 1 ≤ gen') :
    ∀ (L : List ℕ) (s : GenState),
      GenInv gen' s →
      (∀ x ∈ L, x ∈ s.tree.nodes ∧ s.tree.levels x = some (gen' - 1)) →
      GenInv gen' (L.foldl (processParent pois gen') s) ∧
      (L.foldl (processParent pois gen') s).tree.nodes.length +
          s.nextGen.length =
        s.tree.nodes.length +
          (L.foldl (processParent pois gen') s).nextGen.length := by
  intro L
  induction L with
  | nil =>
    intro s hs _
    exact ⟨hs, rfl⟩
  | cons a L ih =>
    intro s hs hL
    rw [List.foldl_cons]
    have hs' : GenInv gen' { s with drawIdx := s.drawIdx + 1 } := hs
    have ha := hL a (List.mem_cons_self a L)
    obtain ⟨A1, A2, A3, A4, A5⟩ :=
      addChildren_spec a gen' hgen (pois s.drawIdx)
        { s with drawIdx := s.drawIdx + 1 } hs' ha.1 ha.2
    have hL' : ∀ x ∈ L,
        x ∈ (processParent pois gen' s a).tree.nodes ∧
        (processParent pois gen' s a).tree.levels x = some (gen' - 1) := by
      intro x hx
      simp only [processParent]
      have hxs := hL x (List.mem_cons_of_mem _ hx)
      obtain ⟨m1, m2⟩ := A2 x hxs.1
      exact ⟨m1, by rw [m2]; exact hxs.2⟩
    have hA1 : GenInv gen' (processParent pois gen' s a) := by
      simp only [processParent]
      exact A1
    obtain ⟨B1, B2⟩ := ih (processParent pois gen' s a) hA1 hL'
    refine ⟨B1, ?_⟩
    have A3' : (processParent pois gen' s a).tree.nodes.length +
        s.nextGen.length =
        s.tree.nodes.length +
          (processParent pois gen' s a).nextGen.length := by
      simpa [processParent] using A3
    omega

/-- Invariant of the outer `while` state, implying the spec's structural
claims about Galton–Watson outputs. -/
def TreeInv (st : GWState) : Prop :=
  st.sizes.head? = some 1 ∧
  st.sizes.length = st.generation + 1 ∧
  st.sizes.getLast? = some st.curGen.length ∧
  st.tree.nodes.length = st.sizes.sum ∧
  st.tree.levels 0 = some 0 ∧
  0 ∈ st.tree.nodes ∧
  1 ≤ st.counter ∧
  (∀ x ∈ st.tree.nodes, x < st.counter) ∧
  (∀ x ∈ st.curGen, x ∈ st.tree.nodes ∧
    st.tree.levels x = some st.generation) ∧
  (∀ x ∈ st.tree.nodes, x ≠ 0 →
    ∃ p L, st.tree.parents x = some p ∧ p ∈ st.tree.nodes ∧
      st.tree.levels p = some L ∧ st.tree.levels x = some (L + 1))

lemma treeInv_gwInit : TreeInv gwInit := by
  refine ⟨rfl, rfl, rfl, rfl, ?_, ?_, ?_, ?_, ?_, ?_⟩
  · simp [gwInit, Tree.empty, Tree.add_node, updFn]
  · simp [gwInit, Tree.empty, Tree.add_node]
  · exact le_refl 1
  · intro x hx
    simp [gwInit, Tree.empty, Tree.add_node] at hx
    simp [gwInit, hx]
  · intro x hx
    simp [gwInit] at hx
    subst hx
    refine ⟨by simp [gwInit, Tree.empty, Tree.add_node], ?_⟩
    simp [gwInit, Tree.empty, Tree.add_node, updFn]
  · intro x hx hx0
    simp [gwInit, Tree.empty, Tree.add_node] at hx
    exact absurd hx hx0

lemma gwStep_inv (pois : ℕ → ℕ) (maxGen : ℕ) (st : GWState)
    (h : TreeInv st) : TreeInv (gwStep pois maxGen st) := by
  obtain ⟨hh, hlen, hlast, hsum, hl0, h0n, hc1, hbnd, hcur, hpar⟩ := h
  have hgen : 1 ≤ st.generation + 1 := by omega
  have hinit : GenInv (st.generation + 1)
      (⟨st.tree, [], st.counter, st.drawIdx⟩ : GenState) := by
    refine ⟨hl0, h0n, hc1, hbnd, ?_, hpar⟩
    intro x hx
    exact absurd hx (List.not_mem_nil x)
  have hLprop : ∀ x ∈ st.curGen,
      x ∈ (⟨st.tree, [], st.counter, st.drawIdx⟩ : GenState).tree.nodes ∧
      (⟨st.tree, [], st.counter, st.drawIdx⟩ : GenState).tree.levels x =
        some (st.generation + 1 - 1) := by
    intro x hx
    exact ⟨(hcur x hx).1, by simpa using (hcur x hx).2⟩
  obtain ⟨F1, F2⟩ := foldl_processParent_spec pois (st.generation + 1)
    hgen st.curGen _ hinit hLprop
  obtain ⟨G1, G2, G3, G4, G5, G6⟩ := F1
  have hsne : st.sizes ≠ [] := by
    intro hemp
    rw [hemp] at hlen
    simp at hlen
  have efold : (gwStep pois maxGen st).curGen =
      (st.curGen.foldl (processParent pois (st.generation + 1))
        (⟨st.tree, [], st.counter, st.drawIdx⟩ : GenState)).nextGen := rfl
  have esz : (gwStep pois maxGen st).sizes = st.sizes ++
      [(st.curGen.foldl (processParent pois (st.generation + 1))
        (⟨st.tree, [], st.counter, st.drawIdx⟩ : GenState)).nextGen.length]
    := rfl
  have etr : (gwStep pois maxGen st).tree =
      (st.curGen.foldl (processParent pois (st.generation + 1))
        (⟨st.tree, [], st.counter, st.drawIdx⟩ : GenState)).tree := rfl
  refine ⟨?_, ?_, ?_, ?_, G1, G2, G3, G4, G5, G6⟩
  · rw [esz]
    obtain ⟨a, l, hsz⟩ := List.exists_cons_of_ne_nil hsne
    rw [hsz] at hh ⊢
    simpa using hh
  · rw [esz, gwStep_generation, List.length_append, List.length_singleton,
      hlen]
  · rw [esz, efold, List.getLast?_concat]
  · rw [esz, etr, List.sum_append, List.sum_singleton, ← hsum]
    have hF2 : (st.curGen.foldl (processParent pois (st.generation + 1))
        (⟨st.tree, [], st.counter, st.drawIdx⟩ : GenState)).tree.nodes.length
          + ([] : List ℕ).length =
        st.tree.nodes.length +
          (st.curGen.foldl (processParent pois (st.generation + 1))
            (⟨st.tree, [], st.counter,
              st.drawIdx⟩ : GenState)).nextGen.length := F2
    simp only [List.length_nil, Nat.add_zero] at hF2
    exact hF2

lemma gwLoop_inv (pois : ℕ → ℕ) (maxGen : ℕ) :
    ∀ (fuel : ℕ) (st : GWState), TreeInv st →
      TreeInv (gwLoop pois maxGen fuel st) := by
  intro fuel
  induction fuel with
  | zero => intro st h; exact h
  | succ f ih =>
    intro st h
    rw [gwLoop]
    by_cases hc : st.curGen ≠ [] ∧ st.generation < maxGen
    · rw [if_pos hc]
      exact ih _ (gwStep_inv pois maxGen st h)
    · rw [if_neg hc]
      exact h

lemma gwRun_inv (pois : ℕ → ℕ) (m : ℕ) : TreeInv (gwRun pois m) :=
  gwLoop_inv pois m m gwInit treeInv_gwInit

lemma gw_ok (lam : ℚ) (m : ℕ) (pois : ℕ → ℕ) (hl : 0 < lam) (hm : 0 < m) :
    generate_galton_watson_tree lam (m : ℤ) pois =
      Except.ok ((gwRun pois m).tree, (gwRun pois m).reachedMax,
        (gwRun pois m).sizes) := by
  unfold generate_galton_watson_tree
  rw [if_neg (not_le.mpr hl), if_neg (by omega : ¬ (m : ℤ) ≤ 0)]
  simp

lemma gwRun_gen_pos (pois : ℕ → ℕ) (m : ℕ) (hm : 0 < m) :
    1 ≤ (gwRun pois m).generation := by
  unfold gwRun
  obtain ⟨f, rfl⟩ : ∃ f, m = f + 1 := ⟨m - 1, by omega⟩
  rw [gwLoop, if_pos ⟨by simp [gwInit], by simp [gwInit]⟩]
  have h := gwLoop_gen_le pois (f + 1) f (gwStep pois (f + 1) gwInit)
  rw [gwStep_generation] at h
  simpa [gwInit] using h

lemma gwRun_flag_iff (pois : ℕ → ℕ) (m : ℕ) (hm : 0 < m) :
    ((gwRun pois m).reachedMax = true ↔
      ((gwRun pois m).generation = m ∧ (gwRun pois m).curGen ≠ [])) := by
  unfold gwRun
  exact gwLoop_flag pois m m gwInit (by simp [gwInit])
    rfl (by simp [gwInit]) (by simpa [gwInit] using hm)

/-- C1: for valid parameters the returned flag is true exactly when the
process is in the TRUNCATED terminal state: the generation counter reached
`max_generations` with the final current generation still non-empty.  In
every other terminal state — and the final state is always terminal — the
flag is false. -/
theorem reached_max_iff_truncated (lam : ℚ) (m : ℕ) (pois : ℕ → ℕ)
    (hl : 0 < lam) (hm : 0 < m) :
    generate_galton_watson_tree lam (m : ℤ) pois =
      Except.ok ((gwRun pois m).tree, (gwRun pois m).reachedMax,
        (gwRun pois m).sizes) ∧
    ¬((gwRun pois m).curGen ≠ [] ∧ (gwRun pois m).generation < m) ∧
    ((gwRun pois m).reachedMax = true ↔
      ((gwRun pois m).generation = m ∧ (gwRun pois m).curGen ≠ [])) :=
  ⟨gw_ok lam m pois hl hm,
   gwLoop_terminal pois m m gwInit (by simp [gwInit]),
   gwRun_flag_iff pois m hm⟩

/-- Witness for C1: λ = 1, one generation, every node drawing 0 children:
the process goes extinct and the flag is false. -/
theorem reached_max_iff_truncated_witness :
    0 < (1 : ℚ) ∧ 0 < 1 ∧
    (generate_galton_watson_tree 1 ((1 : ℕ) : ℤ) (fun _ => 0) =
        Except.ok ((gwRun (fun _ => 0) 1).tree,
          (gwRun (fun _ => 0) 1).reachedMax,
          (gwRun (fun _ => 0) 1).sizes) ∧
      ¬((gwRun (fun _ => 0) 1).curGen ≠ [] ∧
        (gwRun (fun _ => 0) 1).generation < 1) ∧
      ((gwRun (fun _ => 0) 1).reachedMax = true ↔
        ((gwRun (fun _ => 0) 1).generation = 1 ∧
          (gwRun (fun _ => 0) 1).curGen ≠ []))) :=
  ⟨by norm_num, by norm_num,
   reached_max_iff_truncated 1 1 (fun _ => 0) (by norm_num) (by norm_num)⟩

/-- C4: every Galton–Watson output with valid parameters satisfies
`sizes_per_generation[0] = 1`, `total_population() = sum(sizes)`, root at
level 0, and every non-root node has exactly one recorded parent that sits
one level above it. -/
theorem galton_watson_structural_invariants (lam : ℚ) (m : ℕ)
    (pois : ℕ → ℕ) (hl : 0 < lam) (hm : 0 < m) :
    generate_galton_watson_tree lam (m : ℤ) pois =
      Except.ok ((gwRun pois m).tree, (gwRun pois m).reachedMax,
        (gwRun pois m).sizes) ∧
    (gwRun pois m).sizes.head? = some 1 ∧
    (gwRun pois m).tree.total_population = (gwRun pois m).sizes.sum ∧
    (gwRun pois m).tree.levels 0 = some 0 ∧
    (∀ x ∈ (gwRun pois m).tree.nodes, x ≠ 0 →
      ∃ p L, (gwRun pois m).tree.parents x = some p ∧
        (gwRun pois m).tree.levels p = some L ∧
        (gwRun pois m).tree.levels x = some (L + 1)) := by
  obtain ⟨I1, I2, I3, I4, I5, I6, I7, I8, I9, I10⟩ := gwRun_inv pois m
  refine ⟨gw_ok lam m pois hl hm, I1, I4, I5, ?_⟩
  intro x hx hx0
  obtain ⟨p, L, a1, a2, a3, a4⟩ := I10 x hx hx0
  exact ⟨p, L, a1, a3, a4⟩

/-- Witness for C4: λ = 1, one generation, every node drawing 2
children. -/
theorem galton_watson_structural_invariants_witness :
    0 < (1 : ℚ) ∧ 0 < 1 ∧
    (generate_galton_watson_tree 1 ((1 : ℕ) : ℤ) (fun _ => 2) =
        Except.ok ((gwRun (fun _ => 2) 1).tree,
          (gwRun (fun _ => 2) 1).reachedMax,
          (gwRun (fun _ => 2) 1).sizes) ∧
      (gwRun (fun _ => 2) 1).sizes.head? = some 1 ∧
      (gwRun (fun _ => 2) 1).tree.total_population =
        (gwRun (fun _ => 2) 1).sizes.sum ∧
      (gwRun (fun _ => 2) 1).tree.levels 0 = some 0 ∧
      (∀ x ∈ (gwRun (fun _ => 2) 1).tree.nodes, x ≠ 0 →
        ∃ p L, (gwRun (fun _ => 2) 1).tree.parents x = some p ∧
          (gwRun (fun _ => 2) 1).tree.levels p = some L ∧
          (gwRun (fun _ => 2) 1).tree.levels x = some (L + 1))) :=
  ⟨by norm_num, by norm_num,
   galton_watson_structural_invariants 1 1 (fun _ => 2)
     (by norm_num) (by norm_num)⟩

/-- C10: with valid parameters the generator records the terminal
generation: the flag is true exactly when the last entry of
`sizes_per_generation` is non-zero, on extinction the last entry is 0, the
truncated case has exactly `max_generations + 1` entries, and the list
always has at least two entries. -/
theorem sizes_record_terminal_generation (lam : ℚ) (m : ℕ)
    (pois : ℕ → ℕ) (hl : 0 < lam) (hm : 0 < m) :
    generate_galton_watson_tree lam (m : ℤ) pois =
      Except.ok ((gwRun pois m).tree, (gwRun pois m).reachedMax,
        (gwRun pois m).sizes) ∧
    ((gwRun pois m).reachedMax = true ↔
      (gwRun pois m).sizes.getLast? ≠ some 0) ∧
    ((gwRun pois m).reachedMax = false →
      (gwRun pois m).sizes.getLast? = some 0) ∧
    ((gwRun pois m).reachedMax = true →
      (gwRun pois m).sizes.length = m + 1) ∧
    2 ≤ (gwRun pois m).sizes.length := by
  obtain ⟨I1, I2, I3, I4, I5, I6, I7, I8, I9, I10⟩ := gwRun_inv pois m
  have hflag := gwRun_flag_iff pois m hm
  have hterm : ¬((gwRun pois m).curGen ≠ [] ∧
      (gwRun pois m).generation < m) :=
    gwLoop_terminal pois m m gwInit (by simp [gwInit])
  have hle : (gwRun pois m).generation ≤ m :=
    gwLoop_gen_le_max pois m m gwInit (by simp [gwInit])
  have hpos := gwRun_gen_pos pois m hm
  have hiff2 : (gwRun pois m).reachedMax = true ↔
      (gwRun pois m).sizes.getLast? ≠ some 0 := by
    constructor
    · intro hf
      obtain ⟨hg, hc⟩ := hflag.mp hf
      rw [I3]
      intro hcon
      have : (gwRun pois m).curGen.length = 0 := by
        simpa using hcon
      exact hc (List.length_eq_zero.mp this)
    · intro hlast
      rw [I3] at hlast
      have hcne : (gwRun pois m).curGen ≠ [] := by
        intro hc
        apply hlast
        rw [hc]
        rfl
      have hge : m ≤ (gwRun pois m).generation := by
        by_contra hcon
        exact hterm ⟨hcne, by omega⟩
      exact hflag.mpr ⟨by omega, hcne⟩
  refine ⟨gw_ok lam m pois hl hm, hiff2, ?_, ?_, ?_⟩
  · intro hf
    by_contra hcon
    have := hiff2.mpr hcon
    rw [hf] at this
    exact Bool.false_ne_true this
  · intro hf
    obtain ⟨hg, -⟩ := hflag.mp hf
    rw [I2, hg]
  · omega

/-- Witness for C10: λ = 1, one generation, every node drawing one child:
the process is truncated with `sizes = [1, 1]`. -/
theorem sizes_record_terminal_generation_witness :
    0 < (1 : ℚ) ∧ 0 < 1 ∧
    (generate_galton_watson_tree 1 ((1 : ℕ) : ℤ) (fun _ => 1) =
        Except.ok ((gwRun (fun _ => 1) 1).tree,
          (gwRun (fun _ => 1) 1).reachedMax,
          (gwRun (fun _ => 1) 1).sizes) ∧
      ((gwRun (fun _ => 1) 1).reachedMax = true ↔
        (gwRun (fun _ => 1) 1).sizes.getLast? ≠ some 0) ∧
      ((gwRun (fun _ => 1) 1).reachedMax = false →
        (gwRun (fun _ => 1) 1).sizes.getLast? = some 0) ∧
      ((gwRun (fun _ => 1) 1).reachedMax = true →
        (gwRun (fun _ => 1) 1).sizes.length = 1 + 1) ∧
      2 ≤ (gwRun (fun _ => 1) 1).sizes.length) :=
  ⟨by norm_num, by norm_num,
   sizes_record_terminal_generation 1 1 (fun _ => 1)
     (by norm_num) (by norm_num)⟩

/-! ## Circular layout -/

/-- C9: `circular_layout(n, radius)` maps exactly the nodes `0..n-1`,
placing node `i` at `radius * (cos θ, sin θ)` with `θ = 2πi/n`; for
`n = 0` the result is the empty mapping (and no division occurs since the
loop body never runs). -/
theorem circular_layout_spec (n : ℕ) (radius : ℝ) :
    generate_circular_positions n radius =
      (List.range n).map (fun (i : ℕ) => (i,
        radius * Real.cos (2 * Real.pi * (i : ℝ) / (n : ℝ)),
        radius * Real.sin (2 * Real.pi * (i : ℝ) / (n : ℝ)))) ∧
    (generate_circular_positions n radius).map Prod.fst = List.range n ∧
    generate_circular_positions 0 radius = [] := by
  have h1 : generate_circular_positions n radius =
      (List.range n).map (fun (i : ℕ) => (i,
        radius * Real.cos (2 * Real.pi * (i : ℝ) / (n : ℝ)),
        radius * Real.sin (2 * Real.pi * (i : ℝ) / (n : ℝ)))) := by
    unfold generate_circular_positions
    refine List.map_congr_left ?_
    intro i hi
    have hn : 0 < n := by
      have := List.mem_range.mp hi
      omega
    simp [hn]
  refine ⟨h1, ?_, rfl⟩
  rw [h1, List.map_map]
  simp [Function.comp_def]

/-! ## Spring layout: per-node force sums -/

/-- The repulsive force the pair loop computes for the ordered pair
`(i, j)` (added at `i`, subtracted at `j`). -/
noncomputable def repTerm (k : ℝ) (pos : ℕ → ℝ × ℝ) (i j : ℕ) : ℝ × ℝ :=
  let dx := (pos i).1 - (pos j).1
  let dy := (pos i).2 - (pos j).2
  let dist := clampedDist dx dy
  let force := k * k / (dist * dist)
  (force * dx / dist, force * dy / dist)

/-- The attractive force the edge loop computes for the edge `(u, v)`
(subtracted at `u`, added at `v`). -/
noncomputable def attTerm (k : ℝ) (pos : ℕ → ℝ × ℝ) (e : ℕ × ℕ) : ℝ × ℝ :=
  let dx := (pos e.1).1 - (pos e.2).1
  let dy := (pos e.1).2 - (pos e.2).2
  let dist := clampedDist dx dy
  let force := dist / k
  (force * dx / dist, force * dy / dist)

/-- Net change of `forces[i]` contributed by one pair of the repulsive
loop. -/
noncomputable def repContrib (k : ℝ) (pos : ℕ → ℝ × ℝ) (pr : ℕ × ℕ)
    (i : ℕ) : ℝ × ℝ :=
  (if i = pr.1 then repTerm k pos pr.1 pr.2 else 0) +
  (if i = pr.2 then -repTerm k pos pr.1 pr.2 else 0)

/-- Net change of `forces[i]` contributed by one edge of the attractive
loop. -/
noncomputable def attContrib (k : ℝ) (pos : ℕ → ℝ × ℝ) (e : ℕ × ℕ)
    (i : ℕ) : ℝ × ℝ :=
  (if i = e.1 then -attTerm k pos e else 0) +
  (if i = e.2 then attTerm k pos e else 0)

/-- The total repulsive force on node `i`: the sum of `k²/d²` push-apart
terms against every other node. -/
noncomputable def repForceOn (n : ℕ) (k : ℝ) (pos : ℕ → ℝ × ℝ)
    (i : ℕ) : ℝ × ℝ :=
  (((List.range n).filter (fun j => j ≠ i)).map
    (fun j => repTerm k pos i j)).sum

/-- The total attractive force on node `i`: the sum over the edge list of
the pull-together terms incident to `i`. -/
noncomputable def attForceOn (edges : List (ℕ × ℕ)) (k : ℝ)
    (pos : ℕ → ℝ × ℝ) (i : ℕ) : ℝ × ℝ :=
  (edges.map (fun e => attContrib k pos e i)).sum

/-- One iteration as the spec words it: temperature
`initial_temp * (1 - t/iterations)`, all forces computed from the
positions at the start of the iteration and summed per node, then every
position moved simultaneously by `force * (0.1 * temp)`. -/
noncomputable def specStep (g : Graph) (k initial_temp : ℝ)
    (iterations t : ℕ) (pos : ℕ → ℝ × ℝ) : ℕ → ℝ × ℝ := fun i =>
  let temp := initial_temp * (1 - (t : ℝ) / (iterations : ℝ))
  let F := repForceOn g.n_nodes k pos i + attForceOn g.edges k pos i
  ((pos i).1 + F.1 * (0.1 * temp), (pos i).2 + F.2 * (0.1 * temp))

lemma repPush_apply (k : ℝ) (pos F : ℕ → ℝ × ℝ) (pr : ℕ × ℕ) (i : ℕ) :
    repPush k pos F pr i = F i + repContrib k pos pr i := by
  obtain ⟨p1, p2⟩ := pr
  by_cases h2 : i = p2
  · subst h2
    by_cases h1 : i = p1
    · subst h1
      simp only [repPush, repContrib, repTerm, updFn, if_pos rfl]
      refine Prod.ext ?_ ?_ <;>
        simp [Prod.fst_add, Prod.snd_add]
    · simp only [repPush, repContrib, repTerm, updFn, if_pos rfl,
        if_neg h1]
      refine Prod.ext ?_ ?_ <;>
        (simp [Prod.fst_add, Prod.snd_add, h1]; try ring)
  · by_cases h1 : i = p1
    · subst h1
      simp only [repPush, repContrib, repTerm, updFn, if_pos rfl,
        if_neg h2]
      refine Prod.ext ?_ ?_ <;>
        (simp [Prod.fst_add, Prod.snd_add, h2]; try ring)
    · simp only [repPush, repContrib, repTerm, updFn, if_neg h1,
        if_neg h2]
      simp [h1, h2]

lemma attPull_apply (k : ℝ) (pos F : ℕ → ℝ × ℝ) (e : ℕ × ℕ) (i : ℕ) :
    attPull k pos F e i = F i + attContrib k pos e i := by
  obtain ⟨p1, p2⟩ := e
  by_cases h2 : i = p2
  · subst h2
    by_cases h1 : i = p1
    · subst h1
      simp only [attPull, attContrib, attTerm, updFn, if_pos rfl]
      refine Prod.ext ?_ ?_ <;>
        simp [Prod.fst_add, Prod.snd_add]
    · simp only [attPull, attContrib, attTerm, updFn, if_pos rfl,
        if_neg h1]
      refine Prod.ext ?_ ?_ <;>
        (simp [Prod.fst_add, Prod.snd_add, h1]; try ring)
  · by_cases h1 : i = p1
    · subst h1
      simp only [attPull, attContrib, attTerm, updFn, if_pos rfl,
        if_neg h2]
      refine Prod.ext ?_ ?_ <;>
        (simp [Prod.fst_add, Prod.snd_add, h2]; try ring)
    · simp only [attPull, attContrib, attTerm, updFn, if_neg h1,
        if_neg h2]
      simp [h1, h2]

lemma foldl_repPush (k : ℝ) (pos : ℕ → ℝ × ℝ) :
    ∀ (l : List (ℕ × ℕ)) (F : ℕ → ℝ × ℝ) (i : ℕ),
      (l.foldl (repPush k pos) F) i =
        F i + (l.map (fun pr => repContrib k pos pr i)).sum := by
  intro l
  induction l with
  | nil => intro F i; simp
  | cons pr rest ih =>
    intro F i
    rw [List.foldl_cons, ih, repPush_apply]
    simp [add_assoc]

lemma foldl_attPull (k : ℝ) (pos : ℕ → ℝ × ℝ) :
    ∀ (l : List (ℕ × ℕ)) (F : ℕ → ℝ × ℝ) (i : ℕ),
      (l.foldl (attPull k pos) F) i =
        F i + (l.map (fun e => attContrib k pos e i)).sum := by
  intro l
  induction l with
  | nil => intro F i; simp
  | cons e rest ih =>
    intro F i
    rw [List.foldl_cons, ih, attPull_apply]
    simp [add_assoc]

lemma repTerm_antisymm (k : ℝ) (pos : ℕ → ℝ × ℝ) (i j : ℕ) :
    repTerm k pos j i = -repTerm k pos i j := by
  simp only [repTerm]
  have h1 : (pos j).1 - (pos i).1 = -((pos i).1 - (pos j).1) := by ring
  have h2 : (pos j).2 - (pos i).2 = -((pos i).2 - (pos j).2) := by ring
  rw [h1, h2]
  have h3 : clampedDist (-((pos i).1 - (pos j).1))
      (-((pos i).2 - (pos j).2)) =
      clampedDist ((pos i).1 - (pos j).1) ((pos i).2 - (pos j).2) := by
    unfold clampedDist
    congr 2
    ring
  rw [h3]
  simp only [Prod.neg_mk, Prod.mk.injEq]
  constructor <;> ring

lemma sum_map_single_entry {M : Type} [AddCommMonoid M] (h : ℕ → M)
    (i : ℕ) :
    ∀ (l : List ℕ), l.Nodup →
      (l.map (fun b => if i = b then h b else 0)).sum =
        if i ∈ l then h i else 0 := by
  intro l
  induction l with
  | nil => intro _; simp
  | cons a rest ih =>
    intro hnd
    rw [List.map_cons, List.sum_cons, ih (List.nodup_cons.mp hnd).2]
    by_cases hia : i = a
    · subst hia
      have hnotin : i ∉ rest := (List.nodup_cons.mp hnd).1
      simp [hnotin]
    · simp [hia, Ne.symm hia]

lemma sum_repContrib_zero (k : ℝ) (pos : ℕ → ℝ × ℝ) (i : ℕ) :
    ∀ (l : List (ℕ × ℕ)), (∀ pr ∈ l, pr.1 ≠ i ∧ pr.2 ≠ i) →
      (l.map (fun pr => repContrib k pos pr i)).sum = 0 := by
  intro l
  induction l with
  | nil => intro _; simp
  | cons pr rest ih =>
    intro hl
    rw [List.map_cons, List.sum_cons,
      ih (fun q hq => hl q (List.mem_cons_of_mem _ hq))]
    have h1 := (hl pr (List.mem_cons_self pr rest)).1
    have h2 := (hl pr (List.mem_cons_self pr rest)).2
    simp [repContrib, Ne.symm h1, Ne.symm h2]

lemma perm_shuffle {β : Type} (x y z w : List β) :
    List.Perm ((x ++ y) ++ (z ++ w)) ((x ++ z) ++ (y ++ w)) := by
  rw [List.append_assoc, List.append_assoc]
  refine List.Perm.append_left x ?_
  rw [← List.append_assoc, ← List.append_assoc]
  exact List.Perm.append_right w List.perm_append_comm

lemma flatMap_append_perm {α β : Type} (l : List α) (f g : α → List β) :
    List.Perm (l.flatMap fun a => f a ++ g a)
      (l.flatMap f ++ l.flatMap g) := by
  induction l with
  | nil => simp
  | cons a rest ih =>
    simp only [List.flatMap_cons]
    exact (List.Perm.append_left _ ih).trans
      (perm_shuffle (f a) (g a) (rest.flatMap f) (rest.flatMap g))

lemma flatMap_single {α β : Type} (l : List α) (h : α → β) :
    (l.flatMap fun a => [h a]) = l.map h := by
  induction l with
  | nil => rfl
  | cons a rest ih => simp only [List.flatMap_cons, List.map_cons,
      List.singleton_append, ih]

lemma orderedPairs_succ_perm (n : ℕ) :
    List.Perm (orderedPairs (n + 1))
      (orderedPairs n ++ (List.range n).map (fun a => (a, n))) := by
  unfold orderedPairs
  rw [List.range_succ, List.flatMap_append]
  have hlast : ([n].flatMap fun i =>
      (List.range' (i + 1) (n + 1 - (i + 1))).map fun j => (i, j)) = [] := by
    simp
  rw [hlast, List.append_nil]
  have hblock : ∀ i ∈ List.range n,
      ((List.range' (i + 1) (n + 1 - (i + 1))).map fun j => (i, j)) =
      ((List.range' (i + 1) (n - (i + 1))).map fun j => (i, j)) ++
        [(i, n)] := by
    intro i hi
    have hi' : i < n := List.mem_range.mp hi
    have h1 : n + 1 - (i + 1) = (n - (i + 1)) + 1 := by omega
    have h2 : List.range' (i + 1) ((n - (i + 1)) + 1) =
        List.range' (i + 1) (n - (i + 1)) ++ [(i + 1) + 1 * (n - (i + 1))]
      := List.range'_concat (i + 1) (n - (i + 1))
    have h3 : (i + 1) + 1 * (n - (i + 1)) = n := by omega
    rw [h1, h2, h3, List.map_append, List.map_singleton]
  rw [List.flatMap_congr hblock]
  refine (flatMap_append_perm _ _ _).trans ?_
  rw [flatMap_single]

lemma sum_repContrib_orderedPairs (k : ℝ) (pos : ℕ → ℝ × ℝ) :
    ∀ (n : ℕ) (i : ℕ), i < n →
      ((orderedPairs n).map (fun pr => repContrib k pos pr i)).sum =
        repForceOn n k pos i := by
  intro n
  induction n with
  | zero => intro i hi; omega
  | succ n ih =>
    intro i hi
    have hperm := (orderedPairs_succ_perm n).map
      (fun pr => repContrib k pos pr i)
    rw [hperm.sum_eq, List.map_append, List.sum_append]
    have hfilter : (List.range (n + 1)).filter (fun j => j ≠ i) =
        ((List.range n).filter (fun j => j ≠ i)) ++
          (if n = i then [] else [n]) := by
      rw [List.range_succ, List.filter_append]
      congr 1
      by_cases hni : n = i
      · simp [hni]
      · simp [hni]
    by_cases hin : i < n
    · rw [ih i hin]
      have hlastsum :
          (((List.range n).map (fun a => (a, n))).map
            (fun pr => repContrib k pos pr i)).sum = repTerm k pos i n := by
        rw [List.map_map]
        have : ((List.range n).map
            ((fun pr => repContrib k pos pr i) ∘ (fun a => (a, n)))) =
            (List.range n).map
              (fun a => if i = a then repTerm k pos a n else 0) := by
          refine List.map_congr_left ?_
          intro a ha
          have han : a < n := List.mem_range.mp ha
          simp only [Function.comp_apply, repContrib]
          have hin' : i ≠ n := by omega
          simp [hin']
        rw [this]
        have hns := sum_map_single_entry
          (fun a => repTerm k pos a n) i (List.range n)
          (List.nodup_range n)
        rw [hns]
        simp [List.mem_range, hin]
      rw [hlastsum]
      unfold repForceOn
      rw [hfilter]
      have hni : ¬ n = i := by omega
      rw [if_neg hni, List.map_append, List.sum_append]
      simp
    · have hieq : i = n := by omega
      subst hieq
      have hzero : ((orderedPairs i).map
          (fun pr => repContrib k pos pr i)).sum = 0 := by
        refine sum_repContrib_zero k pos i (orderedPairs i) ?_
        intro pr hpr
        have hb := Iff.mp mem_orderedPairs hpr
        exact ⟨by omega, by omega⟩
      rw [hzero, zero_add]
      have hlastsum :
          (((List.range i).map (fun a => (a, i))).map
            (fun pr => repContrib k pos pr i)).sum =
          ((List.range i).map (fun a => repTerm k pos i a)).sum := by
        rw [List.map_map]
        refine congrArg List.sum ?_
        refine List.map_congr_left ?_
        intro a ha
        have hai : a < i := List.mem_range.mp ha
        have hia : i ≠ a := by omega
        simp only [Function.comp_apply, repContrib]
        simp [hia, repTerm_antisymm k pos a i]
      rw [hlastsum]
      unfold repForceOn
      rw [hfilter, if_pos rfl, List.append_nil]
      refine congrArg List.sum (congrArg _ ?_)
      symm
      rw [List.filter_eq_self]
      intro a ha
      have : a < i := List.mem_range.mp ha
      simp
      omega

lemma iterForces_eq (g : Graph) (k : ℝ) (pos : ℕ → ℝ × ℝ) (i : ℕ)
    (hi : i < g.n_nodes) :
    iterForces g k pos i =
      repForceOn g.n_nodes k pos i + attForceOn g.edges k pos i := by
  unfold iterForces
  rw [foldl_attPull, foldl_repPush,
    sum_repContrib_orderedPairs k pos g.n_nodes i hi]
  have hz : (((0 : ℝ), (0 : ℝ)) : ℝ × ℝ) = (0 : ℝ × ℝ) := rfl
  rw [hz, zero_add]
  rfl

lemma repTerm_congr (k : ℝ) {pos1 pos2 : ℕ → ℝ × ℝ} {i j : ℕ}
    (h1 : pos1 i = pos2 i) (h2 : pos1 j = pos2 j) :
    repTerm k pos1 i j = repTerm k pos2 i j := by
  simp [repTerm, h1, h2]

lemma attTerm_congr (k : ℝ) {pos1 pos2 : ℕ → ℝ × ℝ} {e : ℕ × ℕ}
    (h1 : pos1 e.1 = pos2 e.1) (h2 : pos1 e.2 = pos2 e.2) :
    attTerm k pos1 e = attTerm k pos2 e := by
  simp [attTerm, h1, h2]

lemma repForceOn_congr (n : ℕ) (k : ℝ) {pos1 pos2 : ℕ → ℝ × ℝ}
    (hag : ∀ j, j < n → pos1 j = pos2 j) (i : ℕ) (hi : i < n) :
    repForceOn n k pos1 i = repForceOn n k pos2 i := by
  unfold repForceOn
  refine congrArg List.sum (List.map_congr_left ?_)
  intro j hj
  have hjn : j < n := List.mem_range.mp (List.mem_of_mem_filter hj)
  exact repTerm_congr k (hag i hi) (hag j hjn)

lemma attForceOn_congr (edges : List (ℕ × ℕ)) (n : ℕ) (k : ℝ)
    {pos1 pos2 : ℕ → ℝ × ℝ}
    (hedges : ∀ e ∈ edges, e.1 < n ∧ e.2 < n)
    (hag : ∀ j, j < n → pos1 j = pos2 j) (i : ℕ) :
    attForceOn edges k pos1 i = attForceOn edges k pos2 i := by
  unfold attForceOn
  refine congrArg List.sum (List.map_congr_left ?_)
  intro e he
  have hb := hedges e he
  unfold attContrib
  rw [attTerm_congr k (hag e.1 hb.1) (hag e.2 hb.2)]

lemma springStep_agree (g : Graph) (k t0 : ℝ) (iters : ℕ)
    (hedges : ∀ e ∈ g.edges, e.1 < g.n_nodes ∧ e.2 < g.n_nodes)
    (t : ℕ) {pos1 pos2 : ℕ → ℝ × ℝ}
    (hag : ∀ j, j < g.n_nodes → pos1 j = pos2 j) :
    ∀ i, i < g.n_nodes →
      springStep g k t0 iters pos1 t i = specStep g k t0 iters t pos2 i := by
  intro i hi
  have hF : iterForces g k pos1 i =
      repForceOn g.n_nodes k pos2 i + attForceOn g.edges k pos2 i := by
    rw [iterForces_eq g k pos1 i hi,
      repForceOn_congr g.n_nodes k hag i hi,
      attForceOn_congr g.edges g.n_nodes k hedges hag i]
  simp only [springStep, specStep, hF, hag i hi]

lemma foldl_spring_spec (g : Graph) (k t0 : ℝ) (iters : ℕ)
    (hedges : ∀ e ∈ g.edges, e.1 < g.n_nodes ∧ e.2 < g.n_nodes) :
    ∀ (ts : List ℕ) (pos1 pos2 : ℕ → ℝ × ℝ),
      (∀ j, j < g.n_nodes → pos1 j = pos2 j) →
      ∀ i, i < g.n_nodes →
        (ts.foldl (springStep g k t0 iters) pos1) i =
        (ts.foldl (fun p t => specStep g k t0 iters t p) pos2) i := by
  intro ts
  induction ts with
  | nil => intro pos1 pos2 hag i hi; exact hag i hi
  | cons t ts ih =>
    intro pos1 pos2 hag i hi
    rw [List.foldl_cons, List.foldl_cons]
    exact ih (springStep g k t0 iters pos1 t)
      (specStep g k t0 iters t pos2)
      (fun j hj => springStep_agree g k t0 iters hedges t hag j hj) i hi

/-- C7: `spring_layout` returns the empty mapping for an empty graph
without entering the loop; for `n > 0`, the result is the `iterations`-fold
iterate, from the random initial placement, of the step that uses
temperature `initial_temp * (1 - t/iterations)` at iteration `t`, computes
every repulsive and attractive force from the positions held at the start
of that iteration (distances clamped at 0.01), sums them per node, and
then moves all nodes simultaneously by `force * (0.1 * temperature)`. -/
theorem spring_layout_iteration_spec (g : Graph) (iterations : ℕ)
    (k initial_temp : ℝ) (init : ℕ → ℝ × ℝ)
    (hedges : ∀ e ∈ g.edges, e.1 < g.n_nodes ∧ e.2 < g.n_nodes) :
    generate_spring_positions g iterations k initial_temp init =
      if g.n_nodes = 0 then []
      else (List.range g.n_nodes).map fun i =>
        (i, ((List.range iterations).foldl
          (fun pos t => specStep g k initial_temp iterations t pos)
          init) i) := by
  unfold generate_spring_positions
  by_cases hn : g.n_nodes = 0
  · rw [if_pos hn, if_pos hn]
  · rw [if_neg hn, if_neg hn]
    refine List.map_congr_left ?_
    intro i hi
    have hi' : i < g.n_nodes := List.mem_range.mp hi
    have hkey := foldl_spring_spec g k initial_temp iterations hedges
      (List.range iterations) init init (fun j _ => rfl) i hi'
    rw [hkey]

/-- Witness for C7: the empty graph, for which the result is `[]`. -/
theorem spring_layout_iteration_spec_witness :
    (∀ e ∈ (Graph.init 0).edges, e.1 < (Graph.init 0).n_nodes ∧
      e.2 < (Graph.init 0).n_nodes) ∧
    generate_spring_positions (Graph.init 0) 5 1 1 (fun _ => (0, 0)) =
      (if (Graph.init 0).n_nodes = 0 then []
       else (List.range (Graph.init 0).n_nodes).map fun i =>
        (i, ((List.range 5).foldl
          (fun pos t => specStep (Graph.init 0) 1 1 5 t pos)
          (fun _ => (0, 0))) i)) :=
  ⟨by simp [Graph.init],
   spring_layout_iteration_spec (Graph.init 0) 5 1 1 (fun _ => (0, 0))
     (by simp [Graph.init])⟩

/-! ## Radial layout: angular spans (claim about `assign_spans`) -/

/-- Modelled from the spec's words: "unwrapping" a span endpoint below π
by adding 2π to it. -/
noncomputable def specUnwrap (x : ℝ) : ℝ :=
  if x < Real.pi then x + 2 * Real.pi else x

/-- Modelled from the spec's words: a leaf's span is the point interval at
its angle; an internal node's span is the min/max over its children's
spans, except that when that union's width exceeds π every endpoint below
π is unwrapped before recomputing the min/max and the results are reduced
modulo 2π. -/
noncomputable def specSpan (angles : ℕ → ℝ) : RTree → ℝ × ℝ
  | .node i [] => (angles i, angles i)
  | .node _ (c₀ :: cs) =>
      let ss := (c₀ :: cs).attach.map fun c => specSpan angles c.1
      let lo := pyMin (ss.map Prod.fst)
      let hi := pyMax (ss.map Prod.snd)
      if hi - lo ≤ Real.pi then (lo, hi)
      else (rmod (pyMin (ss.map fun s => specUnwrap s.1)) (2 * Real.pi),
        rmod (pyMax (ss.map fun s => specUnwrap s.2)) (2 * Real.pi))
decreasing_by
  obtain ⟨cv, hc⟩ := c
  simp only [RTree.node.sizeOf_spec]
  have := List.sizeOf_lt_of_mem hc
  omega

lemma assign_spans_eq_specSpan (angles : ℕ → ℝ) : ∀ t : RTree,
    assign_spans angles t = specSpan angles t
  | .node i [] => by
    simp only [assign_spans, specSpan]
  | .node i (c₀ :: cs) => by
    simp only [assign_spans, specSpan]
    have hch : ((c₀ :: cs).attach.map fun c => assign_spans angles c.1) =
        ((c₀ :: cs).attach.map fun c => specSpan angles c.1) := by
      refine List.map_congr_left ?_
      intro c _
      exact assign_spans_eq_specSpan angles c.1
    rw [hch]
    by_cases hcond :
        pyMax ((((c₀ :: cs).attach.map fun c => specSpan angles c.1)).map
            Prod.snd) -
          pyMin ((((c₀ :: cs).attach.map fun c =>
            specSpan angles c.1)).map Prod.fst) > Real.pi
    · rw [if_pos hcond, if_neg (not_le.mpr hcond)]
      simp only [List.map_map, Function.comp_def, specUnwrap]
    · rw [if_neg hcond, if_pos (not_lt.mp hcond)]
decreasing_by
  all_goals
    obtain ⟨cv, hc⟩ := c
    simp only [RTree.node.sizeOf_spec]
    have := List.sizeOf_lt_of_mem hc
    omega

/-- C2: for every tree, the span `assign_spans` computes agrees with the
spec's description (`specSpan`, written from the spec's words); the
internal-node case takes the min/max over the children's spans unless the
width exceeds π, in which case endpoints below π are unwrapped by 2π and
the recomputed min/max are reduced modulo 2π; and the angle of a node with
span `s` is `(s.1 + ((s.2 - s.1) mod 2π)/2) mod 2π`. -/
theorem radial_spans_follow_spec (angles : ℕ → ℝ) (t : RTree) (i : ℕ)
    (c₀ : RTree) (cs : List RTree) (s : ℝ × ℝ) :
    assign_spans angles t = specSpan angles t ∧
    specSpan angles (.node i []) = (angles i, angles i) ∧
    (specSpan angles (.node i (c₀ :: cs)) =
      (fun ss =>
        if pyMax (ss.map Prod.snd) - pyMin (ss.map Prod.fst) ≤ Real.pi
        then (pyMin (ss.map Prod.fst), pyMax (ss.map Prod.snd))
        else (rmod (pyMin (ss.map fun q => specUnwrap q.1)) (2 * Real.pi),
          rmod (pyMax (ss.map fun q => specUnwrap q.2)) (2 * Real.pi)))
        ((c₀ :: cs).map (specSpan angles))) ∧
    mid_angle s =
      rmod (s.1 + rmod (s.2 - s.1) (2 * Real.pi) / 2) (2 * Real.pi) := by
  refine ⟨assign_spans_eq_specSpan angles t, by simp only [specSpan], ?_,
    rfl⟩
  simp only [specSpan]
  rw [List.attach_map_coe]

/-! ## Radial layout: root position and leaf angles -/

lemma dictLookup_eq_none {α : Type} (k : ℕ) :
    ∀ (l : List (ℕ × α)), (∀ e ∈ l, e.1 ≠ k) → dictLookup l k = none := by
  intro l
  induction l with
  | nil => intro _; rfl
  | cons e rest ih =>
    intro h
    have hrest := ih (fun q hq => h q (List.mem_cons_of_mem _ hq))
    have hke : ¬ k = e.1 := fun hh =>
      (h e (List.mem_cons_self e rest)) hh.symm
    obtain ⟨e1, e2⟩ := e
    simp only [dictLookup, hrest, hke]
    simp [hke]

lemma dictLookup_head {α : Type} (e : ℕ × α) (rest : List (ℕ × α))
    (h : ∀ q ∈ rest, q.1 ≠ e.1) :
    dictLookup (e :: rest) e.1 = some e.2 := by
  obtain ⟨e1, e2⟩ := e
  simp only [dictLookup, dictLookup_eq_none e1 rest h]
  simp

lemma layoutNodes_map_fst (angles : ℕ → ℝ) (R : ℝ) (maxL rootId : ℕ) :
    ∀ (t : RTree) (d : ℕ),
      (layoutNodes angles R maxL rootId t d).map Prod.fst =
        (t.depthList d).map Prod.fst
  | .node i cs, d => by
    simp only [layoutNodes, RTree.depthList, List.map_cons]
    congr 1
    rw [List.map_flatten, List.map_flatten, List.map_map, List.map_map]
    refine congrArg List.flatten (List.map_congr_left ?_)
    intro c _
    simp only [Function.comp_apply]
    exact layoutNodes_map_fst angles R maxL rootId c.1 (d + 1)
termination_by t _ => sizeOf t
decreasing_by
  obtain ⟨cv, hc⟩ := c
  simp only [RTree.node.sizeOf_spec]
  have := List.sizeOf_lt_of_mem hc
  omega

lemma layoutNodes_root (angles : ℕ → ℝ) (R : ℝ) (maxL : ℕ) (t : RTree) :
    ∃ rest, layoutNodes angles R maxL t.nid t 0 =
      (t.nid, (0 : ℝ), (0 : ℝ)) :: rest := by
  obtain ⟨i, cs⟩ := t
  refine ⟨(cs.attach.map fun c =>
    layoutNodes angles R maxL (RTree.node i cs).nid c.1 (0 + 1)).flatten,
    ?_⟩
  simp only [layoutNodes, RTree.nid]
  congr 1
  simp

/-- C8: the empty tree yields the empty mapping; every non-empty tree with
distinct node ids places the root at exactly `(0, 0)` (its depth is 0 and
its minimum radius is 0, whatever its angle); and when the collected
leaves are distinct the `i`-th leaf in depth-first order is assigned the
angle `2*pi*i/n_leaves`. -/
theorem radial_root_origin_and_leaf_angles (R : ℝ) (t : RTree)
    (hnd : (RTree.nodeIds t).Nodup)
    (hleaf : (collect_leaves t).Nodup) :
    compute_radial_layout R none = [] ∧
    dictLookup (compute_radial_layout R (some t)) t.nid =
      some ((0 : ℝ), (0 : ℝ)) ∧
    (∀ i (hi : i < (collect_leaves t).length),
      leafAngles t ((collect_leaves t).get ⟨i, hi⟩) =
        2 * Real.pi * (i : ℝ) / ((collect_leaves t).length : ℝ)) := by
  refine ⟨rfl, ?_, ?_⟩
  · have hlay : compute_radial_layout R (some t) =
        layoutNodes (leafAngles t) R
          (max 1 (pyMaxNat ((t.depthList 0).map Prod.snd))) t.nid t 0 := rfl
    obtain ⟨rest, hres⟩ := layoutNodes_root (leafAngles t) R
      (max 1 (pyMaxNat ((t.depthList 0).map Prod.snd))) t
    have hfst := layoutNodes_map_fst (leafAngles t) R
      (max 1 (pyMaxNat ((t.depthList 0).map Prod.snd))) t.nid t 0
    rw [hres] at hfst
    have hnd2 : (t.nid :: rest.map Prod.fst).Nodup := by
      rw [RTree.nodeIds] at hnd
      rw [← hfst] at hnd
      simpa using hnd
    have hkeys : ∀ q ∈ rest, q.1 ≠ t.nid := by
      intro q hq
      have hmem : q.1 ∈ rest.map Prod.fst := List.mem_map_of_mem _ hq
      intro hque
      exact (List.nodup_cons.mp hnd2).1 (hque ▸ hmem)
    rw [hlay, hres]
    exact dictLookup_head (t.nid, ((0 : ℝ), (0 : ℝ))) rest hkeys
  · intro i hi
    unfold leafAngles
    have hidx : (collect_leaves t).indexOf
        ((collect_leaves t).get ⟨i, hi⟩) = i := by
      have h := List.indexOf_getElem hleaf i hi
      simpa using h
    rw [hidx]

/-- Witness for C8: the one-node tree. -/
theorem radial_root_origin_and_leaf_angles_witness :
    (RTree.nodeIds (RTree.node 0 [])).Nodup ∧
    (collect_leaves (RTree.node 0 [])).Nodup ∧
    (compute_radial_layout 1 none = [] ∧
      dictLookup (compute_radial_layout 1 (some (RTree.node 0 [])))
        (RTree.node 0 []).nid = some ((0 : ℝ), (0 : ℝ)) ∧
      (∀ i (hi : i < (collect_leaves (RTree.node 0 [])).length),
        leafAngles (RTree.node 0 [])
            ((collect_leaves (RTree.node 0 [])).get ⟨i, hi⟩) =
          2 * Real.pi * (i : ℝ) /
            ((collect_leaves (RTree.node 0 [])).length : ℝ))) := by
  have h1 : (RTree.nodeIds (RTree.node 0 [])).Nodup := by
    simp [RTree.nodeIds, RTree.depthList]
  have h2 : (collect_leaves (RTree.node 0 [])).Nodup := by
    simp [collect_leaves]
  exact ⟨h1, h2, radial_root_origin_and_leaf_angles 1 (RTree.node 0 [])
    h1 h2⟩

end RandomGraphs
